import Mathlib

set_option maxRecDepth 100000

/-!
Verification of `kp_pre_commit_hooks/gitops_values_validation.py`.

This file embeds the data model and the operations of the gitops values
validation script and proves the stated properties about them.
-/

namespace GitopsValidation

/-- YAML/JSON-like values as produced by `yaml.safe_load`: Python dicts are
modelled as insertion-ordered association lists (a Python dict always has
pairwise distinct keys; where a proof needs that invariant it is an explicit
hypothesis). -/
inductive Val where
  | vnull
  | vbool (b : Bool)
  | vint (n : Int)
  | vstr (s : String)
  | varr (xs : List Val)
  | vdict (entries : List (String × Val))

/-- List of keys of a modelled dict. -/
def dictKeys (d : List (String × Val)) : List String := d.map Prod.fst

/-- `d.get(k)`: first binding of `k` (a Python dict has at most one). -/
def dictGet : List (String × Val) → String → Option Val
  | [], _ => none
  | (k', v') :: rest, k => if k' = k then some v' else dictGet rest k

/-- `d[k] = v`: replace the binding in place if the key exists (keeping its
position, as Python dicts do), otherwise append the new binding. -/
def dictUpd : List (String × Val) → String → Val → List (String × Val)
  | [], k, v => [(k, v)]
  | (k', v') :: rest, k, v =>
      if k' = k then (k, v) :: rest else (k', v') :: dictUpd rest k v

mutual

/-- The new value stored under one key by the merge loop: the code sets
`result[key] = deep_merge(result[key], value)` when the incoming `value` and
the current `result.get(key)` are both dicts, and `result[key] = value`
otherwise.  `deep_merge(result[key], value)` on two dicts first copies the
items of its first argument into a fresh empty dict (an identity copy, a
Python dict having pairwise distinct keys) and then folds the second
argument's items into it, i.e. it is `mergeSrc result[key] value`. -/
def mergeTop : Val → Option Val → Val
  | .vdict ves, some (.vdict res) => .vdict (mergeSrc res ves)
  | v, _ => v
termination_by v _ => sizeOf v

/-- The inner loop of `deep_merge`: fold the items of one source dictionary
into the accumulated `result` dict, left to right. -/
def mergeSrc (result : List (String × Val)) : List (String × Val) → List (String × Val)
  | [] => result
  | (k, v) :: rest => mergeSrc (dictUpd result k (mergeTop v (dictGet result k))) rest
termination_by src => sizeOf src

end

/-- `deep_merge(*sources)`: start from an empty result dict and fold every
source dictionary into it, left to right. -/
def deep_merge (sources : List (List (String × Val))) : List (String × Val) :=
  sources.foldl mergeSrc []

/-- The binary deep merge `deep_merge(a, b)`. -/
def deepMergeTwo (a b : List (String × Val)) : List (String × Val) :=
  deep_merge [a, b]

/-- Every immediate dict value of `d` has pairwise distinct keys (Boolean,
so that it can be checked by evaluation on concrete dicts). -/
def valuesDictKeysNodup (d : List (String × Val)) : Bool :=
  d.all fun p =>
    match p.2 with
    | .vdict x => decide (dictKeys x).Nodup
    | _ => true

lemma dictGet_eq_none_iff (d : List (String × Val)) (k : String) :
    dictGet d k = none ↔ k ∉ dictKeys d := by
  induction d with
  | nil => simp [dictGet, dictKeys]
  | cons p rest ih =>
      obtain ⟨k', v'⟩ := p
      by_cases h : k' = k
      · simp [dictGet, h, dictKeys]
      · simp [dictGet, h, dictKeys, ih, dictKeys] at ih ⊢
        tauto

lemma dictGet_dictUpd_self (d : List (String × Val)) (k : String) (v : Val) :
    dictGet (dictUpd d k v) k = some v := by
  induction d with
  | nil => simp [dictUpd, dictGet]
  | cons p rest ih =>
      obtain ⟨k', v'⟩ := p
      by_cases h : k' = k
      · simp [dictUpd, h, dictGet]
      · simp [dictUpd, h, dictGet, ih]

lemma dictGet_dictUpd_ne (d : List (String × Val)) (k k' : String) (v : Val)
    (h : k ≠ k') : dictGet (dictUpd d k' v) k = dictGet d k := by
  have h' : ¬ (k' = k) := fun e => h e.symm
  induction d with
  | nil => simp [dictUpd, dictGet, h']
  | cons p rest ih =>
      obtain ⟨k₀, v₀⟩ := p
      by_cases h0 : k₀ = k'
      · subst h0
        simp [dictUpd, dictGet, h']
      · simp only [dictUpd, if_neg h0]
        by_cases h1 : k₀ = k
        · simp [dictGet, h1]
        · simp [dictGet, h1, ih]

lemma dictKeys_dictUpd_mem (d : List (String × Val)) (k : String) (v : Val)
    (h : k ∈ dictKeys d) : dictKeys (dictUpd d k v) = dictKeys d := by
  induction d with
  | nil => simp [dictKeys] at h
  | cons p rest ih =>
      obtain ⟨k₀, v₀⟩ := p
      by_cases h0 : k₀ = k
      · simp [dictUpd, h0, dictKeys]
      · simp only [dictKeys, List.map_cons, List.mem_cons] at h
        rcases h with h | h
        · exact absurd h.symm h0
        · simp only [dictUpd, if_neg h0, dictKeys, List.map_cons]
          rw [show List.map Prod.fst (dictUpd rest k v) = dictKeys (dictUpd rest k v) from rfl,
            ih h]
          rfl

lemma dictUpd_not_mem (d : List (String × Val)) (k : String) (v : Val)
    (h : k ∉ dictKeys d) : dictUpd d k v = d ++ [(k, v)] := by
  induction d with
  | nil => simp [dictUpd]
  | cons p rest ih =>
      obtain ⟨k₀, v₀⟩ := p
      simp only [dictKeys, List.map_cons, List.mem_cons] at h
      push_neg at h
      have h0 : ¬ (k₀ = k) := fun e => h.1 e.symm
      simp [dictUpd, h0, ih (by simpa [dictKeys] using h.2)]

lemma nodup_dictKeys_dictUpd (d : List (String × Val)) (k : String) (v : Val)
    (h : (dictKeys d).Nodup) : (dictKeys (dictUpd d k v)).Nodup := by
  by_cases hk : k ∈ dictKeys d
  · rw [dictKeys_dictUpd_mem d k v hk]; exact h
  · rw [dictUpd_not_mem d k v hk]
    have : dictKeys (d ++ [(k, v)]) = dictKeys d ++ [k] := by simp [dictKeys]
    rw [this]
    simp only [List.nodup_append, List.nodup_cons, List.not_mem_nil, not_false_iff,
      List.nodup_nil, true_and, and_true]
    constructor
    · exact h
    · intro a ha hb
      simp only [List.mem_singleton] at hb
      subst hb
      exact hk ha

lemma dictGet_append_of_none (a b : List (String × Val)) (k : String)
    (h : dictGet a k = none) : dictGet (a ++ b) k = dictGet b k := by
  induction a with
  | nil => simp
  | cons p rest ih =>
      obtain ⟨k', v'⟩ := p
      by_cases h0 : k' = k
      · simp [dictGet, h0] at h
      · simp only [dictGet, if_neg h0] at h
        simpa [dictGet, h0] using ih h

lemma mergeSrc_nil (r : List (String × Val)) : mergeSrc r [] = r := by
  rw [mergeSrc]

lemma mergeSrc_cons (r : List (String × Val)) (k : String) (v : Val)
    (rest : List (String × Val)) :
    mergeSrc r ((k, v) :: rest) =
      mergeSrc (dictUpd r k (mergeTop v (dictGet r k))) rest := by
  rw [mergeSrc]

lemma mergeTop_none (v : Val) : mergeTop v none = v := by
  cases v <;> simp [mergeTop]

lemma mergeTop_vdict (ves res : List (String × Val)) :
    mergeTop (.vdict ves) (some (.vdict res)) = .vdict (mergeSrc res ves) := by
  rw [mergeTop]

lemma mergeTop_non_dict (v : Val) (cur : Option Val)
    (h : ∀ es, v ≠ .vdict es) : mergeTop v cur = v := by
  cases v with
  | vdict es => exact absurd rfl (h es)
  | vnull => simp [mergeTop]
  | vbool b => simp [mergeTop]
  | vint n => simp [mergeTop]
  | vstr s => simp [mergeTop]
  | varr xs => simp [mergeTop]

lemma mergeTop_vdict_non_dict (ves : List (String × Val)) (av : Val)
    (h : ∀ res, av ≠ .vdict res) : mergeTop (.vdict ves) (some av) = .vdict ves := by
  cases av with
  | vdict res => exact absurd rfl (h res)
  | vnull => simp [mergeTop]
  | vbool b => simp [mergeTop]
  | vint n => simp [mergeTop]
  | vstr s => simp [mergeTop]
  | varr xs => simp [mergeTop]

lemma nodup_dictKeys_mergeSrc (s : List (String × Val)) :
    ∀ r, (dictKeys r).Nodup → (dictKeys (mergeSrc r s)).Nodup := by
  induction s with
  | nil => intro r h; simpa [mergeSrc_nil] using h
  | cons p rest ih =>
      intro r h
      obtain ⟨k, v⟩ := p
      rw [mergeSrc_cons]
      exact ih _ (nodup_dictKeys_dictUpd _ _ _ h)

lemma mergeSrc_of_disjoint (s : List (String × Val)) :
    ∀ r, (∀ k ∈ dictKeys s, dictGet r k = none) → (dictKeys s).Nodup →
      mergeSrc r s = r ++ s := by
  induction s with
  | nil => intro r _ _; simp [mergeSrc_nil]
  | cons p rest ih =>
      intro r h hn
      obtain ⟨k, v⟩ := p
      have hk : dictGet r k = none := h k (by simp [dictKeys])
      rw [mergeSrc_cons, hk, mergeTop_none,
        dictUpd_not_mem r k v ((dictGet_eq_none_iff r k).mp hk)]
      simp only [dictKeys, List.map_cons, List.nodup_cons] at hn
      rw [ih (r ++ [(k, v)]) ?_ hn.2]
      · simp
      · intro k' hk'
        have hmem : k' ∈ dictKeys ((k, v) :: rest) := by
          simp only [dictKeys, List.map_cons, List.mem_cons]
          exact Or.inr hk'
        have h1 : dictGet r k' = none := h k' hmem
        have h2 : k ≠ k' := fun e => hn.1 (e ▸ hk')
        rw [dictGet_append_of_none _ _ _ h1]
        simp [dictGet, h2]

lemma mergeSrc_empty_left (s : List (String × Val)) (h : (dictKeys s).Nodup) :
    mergeSrc [] s = s := by
  simpa using mergeSrc_of_disjoint s [] (fun k _ => rfl) h

lemma deepMergeTwo_eq_mergeSrc (a b : List (String × Val))
    (ha : (dictKeys a).Nodup) : deepMergeTwo a b = mergeSrc a b := by
  show mergeSrc (mergeSrc [] a) b = mergeSrc a b
  rw [mergeSrc_empty_left a ha]

lemma foldl_mergeSrc_eq_foldl_binary (sources : List (List (String × Val))) :
    ∀ r, (dictKeys r).Nodup →
      sources.foldl mergeSrc r = sources.foldl deepMergeTwo r := by
  induction sources with
  | nil => intro r _; rfl
  | cons s rest ih =>
      intro r h
      simp only [List.foldl_cons]
      rw [deepMergeTwo_eq_mergeSrc r s h]
      exact ih _ (nodup_dictKeys_mergeSrc s r h)

lemma dictGet_mergeSrc_not_mem (s : List (String × Val)) :
    ∀ r k, k ∉ dictKeys s → dictGet (mergeSrc r s) k = dictGet r k := by
  induction s with
  | nil => intro r k _; rw [mergeSrc_nil]
  | cons p rest ih =>
      intro r k hk
      obtain ⟨k', v'⟩ := p
      simp only [dictKeys, List.map_cons, List.mem_cons] at hk
      push_neg at hk
      rw [mergeSrc_cons, ih _ _ (by simpa [dictKeys] using hk.2),
        dictGet_dictUpd_ne _ _ _ _ hk.1]

lemma dictGet_mergeSrc_mem (s : List (String × Val)) :
    ∀ r k v, (dictKeys s).Nodup → dictGet s k = some v →
      dictGet (mergeSrc r s) k = some (mergeTop v (dictGet r k)) := by
  induction s with
  | nil => intro r k v _ hg; simp [dictGet] at hg
  | cons p rest ih =>
      intro r k v hn hg
      obtain ⟨k₀, v₀⟩ := p
      simp only [dictKeys, List.map_cons, List.nodup_cons] at hn
      by_cases hk : k₀ = k
      · subst hk
        simp [dictGet] at hg
        subst hg
        rw [mergeSrc_cons,
          dictGet_mergeSrc_not_mem rest _ _ (by simpa [dictKeys] using hn.1),
          dictGet_dictUpd_self]
      · simp only [dictGet, if_neg hk] at hg
        rw [mergeSrc_cons, ih _ k v hn.2 hg,
          dictGet_dictUpd_ne r k k₀ _ (fun e => hk e.symm)]

lemma valuesDictKeysNodup_get (d : List (String × Val))
    (h : valuesDictKeysNodup d = true) :
    ∀ k x, dictGet d k = some (.vdict x) → (dictKeys x).Nodup := by
  induction d with
  | nil => intro k x hg; simp [dictGet] at hg
  | cons p rest ih =>
      intro k x hg
      obtain ⟨k', v'⟩ := p
      simp only [valuesDictKeysNodup, List.all_cons, Bool.and_eq_true] at h
      by_cases h0 : k' = k
      · simp only [dictGet, if_pos h0, Option.some.injEq] at hg
        subst hg
        exact of_decide_eq_true h.1
      · simp only [dictGet, if_neg h0] at hg
        exact ih (by simpa [valuesDictKeysNodup] using h.2) k x hg

/-- C1: the variadic deep merge equals the left-to-right fold of the binary
deep merge over the sequence of sources (both with the empty mapping as the
starting accumulator and, for a non-empty sequence with a well-formed head,
starting from the first source); and the binary merge combines two mappings
key by key: a key whose values in both mappings are themselves mappings is
merged recursively, and otherwise the later source's value replaces the
earlier one wholesale (arrays and scalars are not merged or concatenated). -/
theorem deep_merge_eq_fold_of_binary (sources : List (List (String × Val)))
    (a b : List (String × Val)) (k : String)
    (ha : (dictKeys a).Nodup) (hb : (dictKeys b).Nodup)
    (hav : valuesDictKeysNodup a = true) :
    deep_merge sources = sources.foldl deepMergeTwo []
    ∧ deep_merge (a :: sources) = sources.foldl deepMergeTwo a
    ∧ dictGet (deepMergeTwo a b) k =
        (match dictGet b k, dictGet a k with
         | some (.vdict ves), some (.vdict res) => some (Val.vdict (deepMergeTwo res ves))
         | some v, _ => some v
         | none, _ => dictGet a k) := by
  refine ⟨?_, ?_, ?_⟩
  · exact foldl_mergeSrc_eq_foldl_binary sources [] (by simp [dictKeys])
  · show ([a] ++ sources).foldl mergeSrc [] = sources.foldl deepMergeTwo a
    rw [List.foldl_append]
    simp only [List.foldl_cons, List.foldl_nil]
    rw [mergeSrc_empty_left a ha]
    exact foldl_mergeSrc_eq_foldl_binary sources a ha
  · rw [deepMergeTwo_eq_mergeSrc a b ha]
    cases hbk : dictGet b k with
    | none =>
        rw [dictGet_mergeSrc_not_mem b a k ((dictGet_eq_none_iff b k).mp hbk)]
    | some v =>
        rw [dictGet_mergeSrc_mem b a k v hb hbk]
        cases v with
        | vdict ves =>
            cases hak : dictGet a k with
            | none => rw [mergeTop_none]
            | some av =>
                cases av with
                | vdict res =>
                    have hres : (dictKeys res).Nodup :=
                      valuesDictKeysNodup_get a hav k res hak
                    rw [mergeTop_vdict]
                    show some (Val.vdict (mergeSrc res ves)) =
                      some (Val.vdict (deepMergeTwo res ves))
                    rw [deepMergeTwo_eq_mergeSrc res ves hres]
                | vnull => rw [mergeTop_vdict_non_dict _ _ (by intro res e; cases e)]
                | vbool bb => rw [mergeTop_vdict_non_dict _ _ (by intro res e; cases e)]
                | vint n => rw [mergeTop_vdict_non_dict _ _ (by intro res e; cases e)]
                | vstr s => rw [mergeTop_vdict_non_dict _ _ (by intro res e; cases e)]
                | varr xs => rw [mergeTop_vdict_non_dict _ _ (by intro res e; cases e)]
        | vnull => rw [mergeTop_non_dict _ _ (by intro es e; cases e)]
        | vbool bb => rw [mergeTop_non_dict _ _ (by intro es e; cases e)]
        | vint n => rw [mergeTop_non_dict _ _ (by intro es e; cases e)]
        | vstr s => rw [mergeTop_non_dict _ _ (by intro es e; cases e)]
        | varr xs => rw [mergeTop_non_dict _ _ (by intro es e; cases e)]

/-- Witness for C1 at a concrete input: two-layer merge where a nested mapping
key is merged recursively and a scalar key is replaced. -/
theorem deep_merge_eq_fold_of_binary_witness :
    (dictKeys [("x", Val.vint 1), ("y", Val.vdict [("z", Val.vint 2)])]).Nodup
    ∧ (dictKeys [("y", Val.vdict [("w", Val.vint 3)])]).Nodup
    ∧ valuesDictKeysNodup [("x", Val.vint 1), ("y", Val.vdict [("z", Val.vint 2)])] = true
    ∧ deep_merge [[("x", Val.vint 1), ("y", Val.vdict [("z", Val.vint 2)])],
         [("y", Val.vdict [("w", Val.vint 3)])]] =
        [[("y", Val.vdict [("w", Val.vint 3)])]].foldl deepMergeTwo
          [("x", Val.vint 1), ("y", Val.vdict [("z", Val.vint 2)])] := by
  have h := deep_merge_eq_fold_of_binary [[("y", Val.vdict [("w", Val.vint 3)])]]
    [("x", Val.vint 1), ("y", Val.vdict [("z", Val.vint 2)])]
    [("y", Val.vdict [("w", Val.vint 3)])] "y"
    (by decide) (by decide) (by decide)
  exact ⟨by decide, by decide, by decide, h.2.1⟩

/-!
## Semantic versions and `HelmChart.json_schema`
-/

/-- A parsed semantic version (`semver.VersionInfo`); the build metadata is
not kept because it never takes part in comparisons. -/
structure SemVer where
  major : Nat
  minor : Nat
  patch : Nat
  prerelease : List String
deriving DecidableEq

/-- Characters allowed in prerelease / build identifiers: `[0-9A-Za-z-]`. -/
def isIdentChar (c : Char) : Bool := c.isDigit || c.isAlpha || c = '-'

/-- Numeric value of a digit run. -/
def digitsToNat (cs : List Char) : Nat :=
  cs.foldl (fun a c => a * 10 + (c.toNat - 48)) 0

/-- A version-core number: `0|[1-9][0-9]*` (nonempty digits, no leading
zero). -/
def parseNumId (cs : List Char) : Option Nat :=
  if cs ≠ [] ∧ cs.all Char.isDigit ∧ (cs.head? = some '0' → cs = ['0']) then
    some (digitsToNat cs)
  else none

/-- Split a character list at every dot. -/
def splitDots : List Char → List (List Char)
  | [] => [[]]
  | '.' :: rest => [] :: splitDots rest
  | c :: rest =>
      match splitDots rest with
      | g :: gs => (c :: g) :: gs
      | [] => [[c]]

/-- A valid prerelease identifier: nonempty, made of identifier characters,
and without a leading zero when purely numeric. -/
def preIdValid (cs : List Char) : Bool :=
  cs ≠ [] && cs.all isIdentChar &&
    (if cs.all Char.isDigit then decide (cs.head? ≠ some '0') || decide (cs = ['0']) else true)

/-- A valid build identifier: nonempty, made of identifier characters. -/
def buildIdValid (cs : List Char) : Bool :=
  cs ≠ [] && cs.all isIdentChar

/-- Parse the `-prerelease` / `+build` tail that follows the version core. -/
def parseSemverTail (maj mino pat : Nat) : List Char → Option SemVer
  | [] => some ⟨maj, mino, pat, []⟩
  | '-' :: pr =>
      let preCs := pr.takeWhile (· ≠ '+')
      let rest := pr.dropWhile (· ≠ '+')
      let preIds := splitDots preCs
      if preIds.all preIdValid then
        match rest with
        | [] => some ⟨maj, mino, pat, preIds.map (fun l => ⟨l⟩)⟩
        | '+' :: bs =>
            if (splitDots bs).all buildIdValid then
              some ⟨maj, mino, pat, preIds.map (fun l => ⟨l⟩)⟩
            else none
        | _ => none
      else none
  | '+' :: bs =>
      if (splitDots bs).all buildIdValid then some ⟨maj, mino, pat, []⟩ else none
  | _ => none

/-- `semver.VersionInfo.parse`: `major.minor.patch(-prerelease)?(+build)?`. -/
def parseSemver (s : String) : Option SemVer :=
  let cs := s.toList
  let m1 := cs.takeWhile Char.isDigit
  match cs.dropWhile Char.isDigit with
  | '.' :: r2 =>
      let m2 := r2.takeWhile Char.isDigit
      match r2.dropWhile Char.isDigit with
      | '.' :: r4 =>
          let m3 := r4.takeWhile Char.isDigit
          match parseNumId m1, parseNumId m2, parseNumId m3 with
          | some a, some b, some c => parseSemverTail a b c (r4.dropWhile Char.isDigit)
          | _, _, _ => none
      | _ => none
  | _ => none

/-- Three-way comparison on naturals, as an integer sign. -/
def cmpNat (a b : Nat) : Int := if a < b then -1 else if a = b then 0 else 1

/-- Compare two prerelease identifiers: numeric identifiers compare
numerically and sort before alphanumeric ones; alphanumeric identifiers
compare as ASCII strings. -/
def cmpIdent (a b : String) : Int :=
  if a.toList.all Char.isDigit then
    if b.toList.all Char.isDigit then cmpNat (digitsToNat a.toList) (digitsToNat b.toList)
    else -1
  else
    if b.toList.all Char.isDigit then 1
    else if a < b then -1 else if a = b then 0 else 1

/-- Compare two (nonempty) prerelease identifier lists pairwise; a strict
prefix sorts first. -/
def cmpIdentList : List String → List String → Int
  | [], [] => 0
  | [], _ :: _ => -1
  | _ :: _, [] => 1
  | a :: as1, b :: bs1 =>
      let c := cmpIdent a b
      if c = 0 then cmpIdentList as1 bs1 else c

/-- `semver` comparison: version core numerically, then a release sorts after
any prerelease of the same core. -/
def semverCompare (a b : SemVer) : Int :=
  let c1 := cmpNat a.major b.major
  if c1 ≠ 0 then c1 else
  let c2 := cmpNat a.minor b.minor
  if c2 ≠ 0 then c2 else
  let c3 := cmpNat a.patch b.patch
  if c3 ≠ 0 then c3 else
  match a.prerelease, b.prerelease with
  | [], [] => 0
  | [], _ :: _ => 1
  | _ :: _, [] => -1
  | x :: xs, y :: ys => cmpIdentList (x :: xs) (y :: ys)

/-- The schema base URL. -/
def SCHEMA_BASE_URL : String :=
  "https://kp-helmchart-stable-shared-main.s3.eu-west-1.amazonaws.com/schema/platform-managed-chart"

/-- URL of the strict schema for one platform-managed-chart version. -/
def strictSchemaUrl (version : String) : String :=
  SCHEMA_BASE_URL ++ "/v" ++ version ++ "/schema-platform-managed-chart-strict.json"

/-- A Helm chart: name, version and dependency charts. -/
inductive HelmChart where
  | mk (name : String) (version : String) (dependencies : List HelmChart)

def HelmChart.name : HelmChart → String
  | .mk n _ _ => n

def HelmChart.version : HelmChart → String
  | .mk _ v _ => v

def HelmChart.dependencies : HelmChart → List HelmChart
  | .mk _ _ d => d

/-- `get_dependency`: the first dependency with the given name. -/
def HelmChart.get_dependency (c : HelmChart) (n : String) : Option HelmChart :=
  c.dependencies.find? (fun d => d.name == n)

/-- `platform_managed_chart_version`: version of the dependency named
`platform-managed-chart`, when declared. -/
def HelmChart.platform_managed_chart_version (c : HelmChart) : Option String :=
  (c.get_dependency "platform-managed-chart").map HelmChart.version

/-- The semantic-version threshold `"0.1.35"`. -/
def thresholdVersion : SemVer := ⟨0, 1, 35, []⟩

/-- `HelmChart.json_schema`, with the HTTP fetcher abstracted as a function
from URL to document; the second component records the URLs the fetcher was
called on.  `none` models the `ValueError` that `semver.VersionInfo.parse`
raises on a malformed version (the guard's Python truthiness makes an empty
version string skip parsing and yield the empty schema). -/
def HelmChart.json_schema (c : HelmChart) (fetch : String → Val) :
    Option (Val × List String) :=
  match c.platform_managed_chart_version with
  | none => some (Val.vdict [], [])
  | some v =>
      if v = "" then some (Val.vdict [], [])
      else
        match parseSemver v with
        | none => none
        | some sv =>
            if 0 ≤ semverCompare sv thresholdVersion then
              some (fetch (strictSchemaUrl v), [strictSchemaUrl v])
            else some (Val.vdict [], [])

/-- C2: for a chart whose platform-managed-chart dependency version parses as
a semantic version, `json_schema` fetches the strict schema at the URL built
from exactly that version when the version compares `≥ 0` against the
threshold `0.1.35`, and otherwise — version below the threshold, or no
platform-managed-chart dependency at all — it is the empty mapping and the
fetcher is never called (the call log is empty). -/
theorem json_schema_version_threshold (c c₂ : HelmChart) (fetch : String → Val)
    (v : String) (sv : SemVer)
    (hv : c.platform_managed_chart_version = some v)
    (hp : parseSemver v = some sv)
    (h₂ : c₂.platform_managed_chart_version = none) :
    (0 ≤ semverCompare sv thresholdVersion →
        c.json_schema fetch = some (fetch (strictSchemaUrl v), [strictSchemaUrl v])
        ∧ strictSchemaUrl v =
            SCHEMA_BASE_URL ++ "/v" ++ v ++ "/schema-platform-managed-chart-strict.json")
    ∧ (semverCompare sv thresholdVersion < 0 →
        c.json_schema fetch = some (Val.vdict [], []))
    ∧ c₂.json_schema fetch = some (Val.vdict [], []) := by
  have hvempty : parseSemver "" = none := rfl
  have hne : v ≠ "" := by
    intro e
    rw [e, hvempty] at hp
    cases hp
  refine ⟨?_, ?_, ?_⟩
  · intro hge
    refine ⟨?_, rfl⟩
    simp only [HelmChart.json_schema, hv, if_neg hne, hp, if_pos hge]
  · intro hlt
    have hnge : ¬ (0 ≤ semverCompare sv thresholdVersion) := not_le.mpr hlt
    simp only [HelmChart.json_schema, hv, if_neg hne, hp, if_neg hnge]
  · simp only [HelmChart.json_schema, h₂]

/-- Witness for C2: a chart depending on platform-managed-chart `0.1.157`
(at or above the threshold) fetches the strict-schema URL for exactly that
version; a chart without the dependency gets the empty schema. -/
theorem json_schema_version_threshold_witness :
    HelmChart.json_schema
        (.mk "my-service" "1.0.0" [.mk "platform-managed-chart" "0.1.157" []])
        (fun u => Val.vstr u)
      = some (Val.vstr (strictSchemaUrl "0.1.157"), [strictSchemaUrl "0.1.157"])
    ∧ HelmChart.json_schema (.mk "other" "1.0.0" []) (fun u => Val.vstr u)
      = some (Val.vdict [], []) := by
  have h := json_schema_version_threshold
    (.mk "my-service" "1.0.0" [.mk "platform-managed-chart" "0.1.157" []])
    (.mk "other" "1.0.0" []) (fun u => Val.vstr u) "0.1.157" ⟨0, 1, 157, []⟩
    (by decide) (by decide) (by decide)
  exact ⟨(h.1 (by decide)).1, h.2.2⟩

/-!
## The max-local-topic-bytes compliance check
-/

/-- `needle` occurs as a contiguous substring of `hay`. -/
def containsSub (needle hay : String) : Prop := List.IsInfix needle.data hay.data

instance (n h : String) : Decidable (containsSub n h) := by
  unfold containsSub; infer_instance

/-- Python string interpolation of an `Optional[str]` (`None` prints as
`"None"`). -/
def pyStrOfOption : Option String → String
  | none => "None"
  | some s => s

/-- `ALLOWED_MAX_LOCAL_TOPIC_BYTES_BY_TOPIC_AND_ENV[topic][env]["max_limit"]`,
looked up with `.get(..., {})` steps so that any absent key gives nothing. -/
def allowedMaxLocalTopicBytes (topic : Option String) (env : String) : Option Nat :=
  if topic = some "ais-listener.nmea" ∧ env = "prod" then some 697932185600
  else if topic = some "ais-listener.error.station" ∧ env = "prod" then some 536870912000
  else none

/-- The error text for a quota on a topic/environment pair that is not in the
allow-list (the literal pieces follow the Python source). -/
def notAllowedTopicMsg (topic : Option String) (env : String) : String :=
  "maxLocalTopicBytes can only be used with allowed topics" ++
  " and topic '" ++ pyStrOfOption topic ++ "' is not allowed for environment '" ++ env ++
  "'." ++
  " See https://kpler.atlassian.net/wiki/x/BgGKS for more information."

/-- The error text for a quota that exceeds the listed ceiling. -/
def exceedsMaxMsg (m : Nat) (topic : Option String) (env : String) : String :=
  "maxLocalTopicBytes exceeds the allowed maximum of " ++ toString m ++ " " ++
  "for topic '" ++ pyStrOfOption topic ++ "' in environment '" ++ env ++ "'.\n" ++
  " See https://kpler.atlassian.net/wiki/x/BgGKS for more information."

/-- `validate_max_local_topic_bytes_compliance`: no quota means no check;
`if not max_allowed_values` (absent key, or a zero ceiling, both falsy)
rejects the topic/environment pair; a quota above the ceiling is rejected
with the ceiling in the message. -/
def validate_max_local_topic_bytes (env : String) (topicName : Option String)
    (maxLocalTopicBytes : Option Int) : List String :=
  match maxLocalTopicBytes with
  | none => []
  | some b =>
      let m := (allowedMaxLocalTopicBytes topicName env).getD 0
      if m = 0 then [notAllowedTopicMsg topicName env]
      else if b > (m : Int) then [exceedsMaxMsg m topicName env]
      else []

lemma allowedMaxLocalTopicBytes_ne_zero (topic : Option String) (env : String)
    (m : Nat) (h : allowedMaxLocalTopicBytes topic env = some m) : m ≠ 0 := by
  unfold allowedMaxLocalTopicBytes at h
  split_ifs at h
  · injection h with h; omega
  · injection h with h; omega

/-- C6: a `maxLocalTopicBytes` quota yields an error exactly when the
(topic, environment) pair is absent from the static allow-list (message
containing "can only be used with allowed topics" — regardless of the quota's
value) or when the quota exceeds the listed ceiling (message containing the
ceiling); a quota at or below the ceiling of a listed pair yields no error.
In particular topic `ais-listener.nmea` with quota `700000000000` in `prod`
yields exactly one error containing
"exceeds the allowed maximum of 697932185600". -/
theorem validate_max_local_topic_bytes_spec (env : String) (topic : Option String)
    (b : Int) :
    validate_max_local_topic_bytes env topic none = []
    ∧ (∀ m : Nat, allowedMaxLocalTopicBytes topic env = some m →
        (b ≤ (m : Int) → validate_max_local_topic_bytes env topic (some b) = [])
        ∧ ((m : Int) < b →
            validate_max_local_topic_bytes env topic (some b) = [exceedsMaxMsg m topic env]
            ∧ containsSub ("exceeds the allowed maximum of " ++ toString m)
                (exceedsMaxMsg m topic env)))
    ∧ (allowedMaxLocalTopicBytes topic env = none →
        validate_max_local_topic_bytes env topic (some b) = [notAllowedTopicMsg topic env]
        ∧ containsSub "can only be used with allowed topics" (notAllowedTopicMsg topic env))
    ∧ validate_max_local_topic_bytes "prod" (some "ais-listener.nmea")
        (some 700000000000) = [exceedsMaxMsg 697932185600 (some "ais-listener.nmea") "prod"]
    ∧ containsSub "exceeds the allowed maximum of 697932185600"
        (exceedsMaxMsg 697932185600 (some "ais-listener.nmea") "prod") := by
  refine ⟨rfl, ?_, ?_, by decide, by decide⟩
  · intro m hm
    have hm0 : m ≠ 0 := allowedMaxLocalTopicBytes_ne_zero topic env m hm
    constructor
    · intro hle
      simp only [validate_max_local_topic_bytes, hm, Option.getD_some, if_neg hm0,
        if_neg (not_lt.mpr hle)]
    · intro hgt
      refine ⟨?_, ?_⟩
      · simp only [validate_max_local_topic_bytes, hm, Option.getD_some, if_neg hm0,
          if_pos hgt]
      · refine ⟨"maxLocalTopicBytes ".data,
          (" " ++ "for topic '" ++ pyStrOfOption topic ++ "' in environment '" ++ env ++
            "'.\n" ++ " See https://kpler.atlassian.net/wiki/x/BgGKS for more information.").data,
          ?_⟩
        simp only [containsSub, exceedsMaxMsg, String.data_append, List.append_assoc]
        rfl
  · intro hm
    refine ⟨?_, ?_⟩
    · simp only [validate_max_local_topic_bytes, hm, Option.getD_none,
        eq_self_iff_true, if_true]
    · refine ⟨"maxLocalTopicBytes ".data,
        (" and topic '" ++ pyStrOfOption topic ++ "' is not allowed for environment '" ++ env ++
          "'." ++ " See https://kpler.atlassian.net/wiki/x/BgGKS for more information.").data,
        ?_⟩
      simp only [containsSub, notAllowedTopicMsg, String.data_append, List.append_assoc]
      rfl

/-- Witness for C6 at the scenario input from the spec. -/
theorem validate_max_local_topic_bytes_witness :
    validate_max_local_topic_bytes "prod" (some "ais-listener.nmea")
        (some 700000000000)
      = [exceedsMaxMsg 697932185600 (some "ais-listener.nmea") "prod"]
    ∧ validate_max_local_topic_bytes "prod" (some "ais-listener.nmea")
        (some 600000000000) = []
    ∧ validate_max_local_topic_bytes "prod" (some "foo.bar") (some 5)
      = [notAllowedTopicMsg (some "foo.bar") "prod"] := by
  have h := validate_max_local_topic_bytes_spec "prod" (some "ais-listener.nmea")
    (600000000000 : Int)
  have h2 := validate_max_local_topic_bytes_spec "prod" (some "foo.bar") (5 : Int)
  refine ⟨h.2.2.2.1, ?_, ?_⟩
  · exact ((h.2.1 697932185600 (by decide)).1 (by decide))
  · exact (h2.2.2.1 (by decide)).1

/-!
## Unique service names across applications
-/

lemma char_eq_of_toNat_eq {a b : Char} (h : a.toNat = b.toNat) : a = b := by
  apply Char.ext
  apply UInt32.eq_of_val_eq
  apply Fin.ext
  exact h

/-- Lexicographic (alphabetical, by character code) order on character
lists. -/
def charListLe : List Char → List Char → Bool
  | [], _ => true
  | _ :: _, [] => false
  | a :: as, b :: bs => if a = b then charListLe as bs else decide (a.toNat < b.toNat)

/-- Alphabetical order on strings. -/
def strLe (a b : String) : Prop := charListLe a.data b.data = true

instance (a b : String) : Decidable (strLe a b) := by unfold strLe; infer_instance

lemma charListLe_total : ∀ a b, charListLe a b = true ∨ charListLe b a = true := by
  intro a
  induction a with
  | nil => intro b; left; rfl
  | cons x xs ih =>
      intro b
      cases b with
      | nil => right; rfl
      | cons y ys =>
          by_cases hxy : x = y
          · subst hxy
            rcases ih ys with h | h
            · left; simpa [charListLe] using h
            · right; simpa [charListLe] using h
          · have hne : x.toNat ≠ y.toNat := fun e => hxy (char_eq_of_toNat_eq e)
            by_cases hlt : x.toNat < y.toNat
            · left; simp [charListLe, hxy, hlt]
            · right
              have hyx : ¬ (y = x) := fun e => hxy e.symm
              have : y.toNat < x.toNat := by omega
              simp [charListLe, hyx, this]

lemma charListLe_trans :
    ∀ a b c, charListLe a b = true → charListLe b c = true → charListLe a c = true := by
  intro a
  induction a with
  | nil => intro b c _ _; rfl
  | cons x xs ih =>
      intro b c hab hbc
      cases b with
      | nil => simp [charListLe] at hab
      | cons y ys =>
          cases c with
          | nil => simp [charListLe] at hbc
          | cons z zs =>
              by_cases hxy : x = y
              · subst hxy
                simp only [charListLe, if_pos rfl] at hab
                by_cases hyz : x = z
                · subst hyz
                  simp only [charListLe, if_pos rfl] at hbc ⊢
                  exact ih ys zs hab hbc
                · simp only [charListLe, if_neg hyz] at hbc ⊢
                  exact hbc
              · simp only [charListLe, if_neg hxy, decide_eq_true_eq] at hab
                by_cases hyz : y = z
                · subst hyz
                  simp [charListLe, hxy, hab]
                · simp only [charListLe, if_neg hyz, decide_eq_true_eq] at hbc
                  have hxz : x ≠ z := by
                    intro e; subst e
                    have : x.toNat < x.toNat := lt_trans hab hbc
                    omega
                  simp only [charListLe, if_neg hxz, decide_eq_true_eq]
                  omega

instance strLe_total : IsTotal String strLe :=
  ⟨fun a b => charListLe_total a.data b.data⟩

instance strLe_trans : IsTrans String strLe :=
  ⟨fun a b c => charListLe_trans a.data b.data c.data⟩

/-- Sort strings alphabetically. -/
def sortStrings (l : List String) : List String := l.insertionSort strLe

/-- Modelled from the spec: the application names under which a given
service name is declared (the repository's `validate_unique_service_names`
method itself is absent from the sources — only its tests call it).  An
instance is a pair (applicationName, serviceName). -/
def appsOfService (instances : List (String × String)) (n : String) : List String :=
  ((instances.filter (fun p => p.2 = n)).map Prod.fst).dedup

/-- Modelled from the spec: the service names declared under more than one
distinct application. -/
def duplicateServiceNames (instances : List (String × String)) : List String :=
  (instances.map Prod.snd).dedup.filter (fun n => 1 < (appsOfService instances n).length)

/-- Modelled from the spec: the error message for one duplicated service
name, naming the offending applications (already sorted alphabetically by
the caller) and stating the uniqueness rule. -/
def uniqueServiceNamesErrorMsg (n : String) (apps : List String) : String :=
  "Service name '" ++ n ++ "' is used in multiple applications: " ++
  String.intercalate ", " apps ++
  ". Service names must be unique across all applications"

/-- Modelled from the spec: `GitOpsRepository.validate_unique_service_names`
(absent from the sources; reconstructed from the spec and its tests): group
all discovered instances by service name; every name appearing under more
than one distinct application yields exactly one error naming the offending
applications in alphabetical order. -/
def validate_unique_service_names (instances : List (String × String)) : List String :=
  (duplicateServiceNames instances).map
    (fun n => uniqueServiceNamesErrorMsg n (sortStrings (appsOfService instances n)))

/-- C4: `validate_unique_service_names` yields exactly one error per service
name spanning more than one application, with the offending application
names listed alphabetically and the fixed uniqueness sentence in the
message, and yields no error when no service name spans two applications. -/
theorem validate_unique_service_names_spec (instances : List (String × String))
    (n : String) :
    validate_unique_service_names instances =
      (duplicateServiceNames instances).map
        (fun m => uniqueServiceNamesErrorMsg m (sortStrings (appsOfService instances m)))
    ∧ (n ∈ duplicateServiceNames instances ↔ 1 < (appsOfService instances n).length)
    ∧ (sortStrings (appsOfService instances n)).Sorted strLe
    ∧ containsSub "Service names must be unique across all applications"
        (uniqueServiceNamesErrorMsg n (sortStrings (appsOfService instances n)))
    ∧ ((∀ m ∈ instances.map Prod.snd, (appsOfService instances m).length ≤ 1) →
        validate_unique_service_names instances = []) := by
  refine ⟨rfl, ?_, ?_, ?_, ?_⟩
  · constructor
    · intro h
      exact of_decide_eq_true (List.mem_filter.mp h).2
    · intro h
      apply List.mem_filter.mpr
      refine ⟨?_, decide_eq_true h⟩
      apply List.mem_dedup.mpr
      have : appsOfService instances n ≠ [] := by
        intro e; rw [e] at h; simp at h
      obtain ⟨p, hp, hpn⟩ : ∃ p ∈ instances, p.2 = n := by
        by_contra hc
        push_neg at hc
        apply this
        unfold appsOfService
        rw [List.filter_eq_nil_iff.mpr]
        · rfl
        · intro p hp
          simpa using hc p hp
      exact hpn ▸ List.mem_map_of_mem Prod.snd hp
  · exact List.sorted_insertionSort strLe (appsOfService instances n)
  · refine ⟨("Service name '" ++ n ++ "' is used in multiple applications: " ++
      String.intercalate ", " (sortStrings (appsOfService instances n)) ++ ". ").data, [], ?_⟩
    simp only [uniqueServiceNamesErrorMsg, String.data_append, List.append_assoc,
      List.append_nil]
    rfl
  · intro h
    unfold validate_unique_service_names duplicateServiceNames
    rw [List.filter_eq_nil_iff.mpr, List.map_nil]
    intro m hm
    simpa using h m (List.mem_dedup.mp hm)

/-- Witness for C4: two instances in different applications declaring the
same service name produce exactly one error naming both applications in
alphabetical order; distinct service names produce none. -/
theorem validate_unique_service_names_spec_witness :
    validate_unique_service_names [("app2", "billing"), ("app1", "billing")] =
      [uniqueServiceNamesErrorMsg "billing" ["app1", "app2"]]
    ∧ validate_unique_service_names [("app1", "svc-a"), ("app2", "svc-b")] = [] := by
  constructor
  · have h := validate_unique_service_names_spec
      [("app2", "billing"), ("app1", "billing")] "billing"
    rw [h.1]
    decide
  · exact (validate_unique_service_names_spec [("app1", "svc-a"), ("app2", "svc-b")]
      "svc-a").2.2.2.2 (by decide)

/-!
## `validate_configuration`, exception flow and the main loop
-/

/-- The typed exceptions raised by `download_json_schema`: HTTP 403 raises
`UnauthorizedToDownloadSchema(url)`, HTTP 404 raises `MissingSchema(url)`. -/
inductive FetchExc where
  | unauthorized (schema_url : String)
  | missingSchema (schema_url : String)
deriving DecidableEq

/-- A reported error: either a `jsonschema.ValidationError` (kept abstract as
its message) or a `SchemaValidationError(message, location, hint)`. -/
inductive VError where
  | validation (msg : String)
  | schemaError (msg : String) (location : String) (hint : Option String)
deriving DecidableEq

/-- The message of the single error produced when the schema is missing. -/
def missingSchemaMsg (version : Option String) : String :=
  "Missing JSON schema for platform managed chart version " ++ pyStrOfOption version ++
  " in Chart.yaml"

/-- `ServiceInstanceConfigValidator.validate_configuration`.  Building the
validator downloads the schema, so evaluating
`self.validator.iter_errors(configuration)` either raises a fetch exception
or yields the enriched raw validation errors; this evaluation is abstracted
as the `Except` argument.  In the success case the ignored errors are
filtered out and the header-consistency errors
(`iter_schema_validation_errors`) are appended; a `MissingSchema` raised
inside the `try` block is caught and turned into a single
`SchemaValidationError` naming the chart version and the schema URL, all
other checks being skipped; any other exception propagates. -/
def validate_configuration (schemaFetch : Except FetchExc (List VError))
    (isIgnored : VError → Bool) (headerErrors : List VError)
    (version : Option String) : Except FetchExc (List VError) :=
  match schemaFetch with
  | .ok raw => .ok (raw.filter (fun e => !isIgnored e) ++ headerErrors)
  | .error (.missingSchema url) =>
      .ok [.schemaError (missingSchemaMsg version) url none]
  | .error e => .error e

/-- What the main loop needs of one discovered service instance. -/
structure InstanceRun where
  schemaFetch : Except FetchExc (List VError)
  isIgnored : VError → Bool
  headerErrors : List VError
  version : Option String

/-- `validator.validate_configuration()` for one instance. -/
def runInstance (i : InstanceRun) : Except FetchExc (List VError) :=
  validate_configuration i.schemaFetch i.isIgnored i.headerErrors i.version

/-- The `__main__` loop over discovered instances, with the running
`errors_found` flag: returns the process exit code and the number of
instances processed.  Only `UnauthorizedToDownloadSchema` escapes
`validate_configuration`; it is caught at the process boundary, which prints
the Twingate hint and exits 1 immediately (`MissingSchema` never escapes
`validate_configuration`; an escaped exception likewise ends the run at
once). -/
def mainLoop : List InstanceRun → Bool → Nat × Nat
  | [], errorsFound => (if errorsFound then 1 else 0, 0)
  | i :: rest, errorsFound =>
      match runInstance i with
      | .ok errs =>
          let r := mainLoop rest (errorsFound || !errs.isEmpty)
          (r.1, r.2 + 1)
      | .error _ => (1, 1)

/-- The whole `__main__` run: exit code and processed-instance count. -/
def gitops_main (instances : List InstanceRun) : Nat × Nat :=
  mainLoop instances false

lemma mainLoop_all_ok_empty (l : List InstanceRun) :
    ∀ acc, (∀ i ∈ l, runInstance i = .ok []) →
      mainLoop l acc = (if acc then 1 else 0, l.length) := by
  induction l with
  | nil => intro acc _; rfl
  | cons i rest ih =>
      intro acc h
      have hi : runInstance i = .ok [] := h i (by simp)
      simp only [mainLoop, hi, List.isEmpty_nil, Bool.not_true, Bool.or_false]
      rw [ih acc (fun j hj => h j (by simp [hj]))]
      simp [List.length_cons]

lemma mainLoop_exit_one (l : List InstanceRun) :
    ∀ acc, (∀ i ∈ l, ∃ e, runInstance i = .ok e) →
      (acc = true ∨ ∃ i ∈ l, ∃ e, runInstance i = .ok e ∧ e ≠ []) →
      (mainLoop l acc).1 = 1 := by
  induction l with
  | nil =>
      intro acc _ h
      rcases h with h | h
      · simp [mainLoop, h]
      · simp at h
  | cons i rest ih =>
      intro acc hok h
      obtain ⟨e, he⟩ := hok i (by simp)
      simp only [mainLoop, he]
      apply ih
      · intro j hj; exact hok j (by simp [hj])
      · rcases h with h | h
        · left; simp [h]
        · rcases h with ⟨j, hj, ej, hje, hne⟩
          rcases List.mem_cons.mp hj with rfl | hj
          · left
            rw [he] at hje
            injection hje with hje
            subst hje
            cases e with
            | nil => exact absurd rfl hne
            | cons a as => simp
          · right; exact ⟨j, hj, ej, hje, hne⟩

/-- C3: a schema fetch that yields `MissingSchema` makes
`validate_configuration` return (not raise) exactly one error whose message
names the missing platform-managed-chart version and whose location is the
schema URL, skipping schema-violation filtering and header-consistency
checks entirely; the run then continues over the remaining instances. -/
theorem validate_configuration_missing_schema (url : String) (version : Option String)
    (isIgnored : VError → Bool) (headerErrors : List VError)
    (instances : List InstanceRun) :
    validate_configuration (.error (.missingSchema url)) isIgnored headerErrors version
      = .ok [.schemaError (missingSchemaMsg version) url none]
    ∧ containsSub (pyStrOfOption version) (missingSchemaMsg version)
    ∧ ((∀ j ∈ instances, runInstance j = .ok []) →
        gitops_main (⟨.error (.missingSchema url), isIgnored, headerErrors, version⟩
            :: instances)
          = (1, instances.length + 1)) := by
  refine ⟨rfl, ?_, ?_⟩
  · refine ⟨"Missing JSON schema for platform managed chart version ".data,
      " in Chart.yaml".data, ?_⟩
    simp only [missingSchemaMsg, String.data_append, List.append_assoc]
  · intro h
    unfold gitops_main
    have hrun : runInstance
        ⟨.error (.missingSchema url), isIgnored, headerErrors, version⟩
        = .ok [.schemaError (missingSchemaMsg version) url none] := rfl
    simp only [mainLoop, hrun, List.isEmpty_cons, Bool.not_false, Bool.or_true]
    rw [mainLoop_all_ok_empty instances true h]
    simp

/-- Witness for C3 at a concrete missing-schema instance. -/
theorem validate_configuration_missing_schema_witness :
    gitops_main [⟨.error (.missingSchema "https://example/schema.json"),
        fun _ => false, [], some "9.9.9"⟩] = (1, 1) := by
  have h := validate_configuration_missing_schema "https://example/schema.json"
    (some "9.9.9") (fun _ => false) [] []
  simpa using h.2.2 (by simp)

/-- C5 counterexample: the `UnauthorizedToDownloadSchema` handler in
`__main__` calls `sys.exit(1)` — the very same exit code as an ordinary
validation failure — so the access-denied exit code is NOT distinct from the
ordinary-failure code: both runs below exit with code 1. -/
theorem main_unauthorized_exit_code_not_distinct :
    (gitops_main [⟨.error (.unauthorized "https://s/x.json"), fun _ => false, [], none⟩]).1
      = 1
    ∧ (gitops_main [⟨.ok [.validation "some violation"], fun _ => false, [], none⟩]).1
      = 1 := by
  exact ⟨rfl, rfl⟩

/-- C5 (amended): the process exits 0 when every discovered instance is
valid, 1 when one or more validation errors are found, and on an
`UnauthorizedToDownloadSchema` fetch (HTTP 403) it aborts immediately —
processing no further instances — with exit code 1, which is non-zero but
the same code as an ordinary failure, not a distinct one. -/
theorem main_exit_codes (instances : List InstanceRun) (i : InstanceRun)
    (url : String) :
    ((∀ j ∈ instances, runInstance j = .ok []) →
        gitops_main instances = (0, instances.length))
    ∧ ((∀ j ∈ instances, ∃ e, runInstance j = .ok e) →
        (∃ j ∈ instances, ∃ e, runInstance j = .ok e ∧ e ≠ []) →
        (gitops_main instances).1 = 1)
    ∧ (i.schemaFetch = .error (.unauthorized url) →
        gitops_main (i :: instances) = (1, 1)) := by
  refine ⟨?_, ?_, ?_⟩
  · intro h
    unfold gitops_main
    rw [mainLoop_all_ok_empty instances false h]
    simp
  · intro hok hbad
    exact mainLoop_exit_one instances false hok (Or.inr hbad)
  · intro h
    have : runInstance i = .error (.unauthorized url) := by
      unfold runInstance validate_configuration
      rw [h]
    unfold gitops_main
    simp only [mainLoop, this]

/-- Witness for C5 (amended) at concrete runs: an all-valid run exits 0; a
run with one violation exits 1; an access-denied run aborts after the first
instance with exit code 1. -/
theorem main_exit_codes_witness :
    gitops_main [⟨.ok [], fun _ => false, [], none⟩,
        ⟨.ok [], fun _ => false, [], none⟩] = (0, 2)
    ∧ (gitops_main [⟨.ok [.validation "bad"], fun _ => false, [], none⟩]).1 = 1
    ∧ gitops_main [⟨.error (.unauthorized "https://s/x.json"), fun _ => false, [], none⟩,
        ⟨.ok [], fun _ => false, [], none⟩] = (1, 1) := by
  have i1 : InstanceRun := ⟨.ok [], fun _ => false, [], none⟩
  refine ⟨?_, ?_, ?_⟩
  · exact (main_exit_codes
      [⟨.ok [], fun _ => false, [], none⟩, ⟨.ok [], fun _ => false, [], none⟩]
      ⟨.ok [], fun _ => false, [], none⟩ "u").1 (by
        intro j hj
        rcases List.mem_cons.mp hj with rfl | hj
        · rfl
        · rcases List.mem_cons.mp hj with rfl | hj
          · rfl
          · simp at hj)
  · exact (main_exit_codes [⟨.ok [.validation "bad"], fun _ => false, [], none⟩]
      ⟨.ok [], fun _ => false, [], none⟩ "u").2.1
      (by
        intro j hj
        rcases List.mem_cons.mp hj with rfl | hj
        · exact ⟨[.validation "bad"], rfl⟩
        · simp at hj)
      ⟨⟨.ok [.validation "bad"], fun _ => false, [], none⟩, by simp,
        [.validation "bad"], rfl, by simp⟩
  · exact (main_exit_codes [⟨.ok [], fun _ => false, [], none⟩]
      ⟨.error (.unauthorized "https://s/x.json"), fun _ => false, [], none⟩
      "https://s/x.json").2.2 rfl

/-!
## Topic-name compliance

`TOPIC_NAME_REGEXP` is
`^(private\.)?(?P<serviceName>[a-z][a-z0-9-]*)\.[a-z][a-z0-9-]*(-[0-9]+)?(\.[a-z0-9]+)?$`.
Its backtracking collapses to a deterministic scan: every greedy class run
`[a-z0-9-]*` is forced to be maximal because the regex characters that may
follow it (a literal dot, or the end) are outside the class, while the
optional `(-[0-9]+)?` adds nothing (its characters already belong to the
class) — the only genuine backtracking point is the optional `private.`
prefix, which is tried first and retried without the prefix on failure.
-/

/-- `[a-z]`. -/
def isLowerAZ (c : Char) : Bool := 97 ≤ c.toNat && c.toNat ≤ 122

/-- `[a-z0-9-]`. -/
def isTopicClassChar (c : Char) : Bool := isLowerAZ c || c.isDigit || c = '-'

/-- `[a-z0-9]`. -/
def isLowerAlnum (c : Char) : Bool := isLowerAZ c || c.isDigit

/-- The part after `serviceName.`: `[a-z][a-z0-9-]*(-[0-9]+)?(\.[a-z0-9]+)?$`:
a word, optionally followed by one dot and a nonempty lowercase-alphanumeric
run reaching the end. -/
def topicTailOk (t : List Char) : Bool :=
  match t with
  | [] => false
  | c :: rest =>
      isLowerAZ c &&
        (match rest.dropWhile isTopicClassChar with
         | [] => true
         | '.' :: a => !a.isEmpty && a.all isLowerAlnum
         | _ => false)

/-- Match `(?P<serviceName>[a-z][a-z0-9-]*)\.` followed by the tail, at the
start of `s`, returning the `serviceName` capture. -/
def matchTopicCore (s : List Char) : Option (List Char) :=
  match s with
  | [] => none
  | c :: rest =>
      if isLowerAZ c then
        match rest.dropWhile isTopicClassChar with
        | '.' :: t =>
            if topicTailOk t then some (c :: rest.takeWhile isTopicClassChar) else none
        | _ => none
      else none

/-- `TOPIC_NAME_REGEXP.match(value)`, returning the `serviceName` group: the
greedy optional `(private\.)?` prefix is consumed first and dropped again if
the rest of the pattern then fails. -/
def matchTopicName (s : List Char) : Option (List Char) :=
  match s with
  | 'p' :: 'r' :: 'i' :: 'v' :: 'a' :: 't' :: 'e' :: '.' :: rest =>
      match matchTopicCore rest with
      | some seg => some seg
      | none => matchTopicCore s
  | _ => matchTopicCore s

/-- One step of the document path tracked by the wrapped validator: a
property name or an array index. -/
inductive PathPart where
  | str (s : String)
  | idx (n : Nat)
deriving DecidableEq

def pathPartToString : PathPart → String
  | .str s => s
  | .idx n => toString n

/-- `_get_current_path`: drop the `None` entries from the raw descent
stack. -/
def getCurrentPath (raw : List (Option PathPart)) : List PathPart :=
  raw.filterMap id

/-- `_get_current_service_name`: a path of the shape
`platform-managed-chart.services.<name>...` resolves to `<name>`; otherwise
a truthy (non-empty) declared `serviceName` in the merged configuration;
otherwise the instance's service group. -/
def getCurrentServiceName (raw : List (Option PathPart)) (cfgServiceName : Option String)
    (serviceGroup : String) : PathPart :=
  let cp := getCurrentPath raw
  if 2 < cp.length ∧ cp.take 2 = [.str "platform-managed-chart", .str "services"] then
    cp.getD 2 (.str serviceGroup)
  else
    match cfgServiceName with
    | some n => if n = "" then .str serviceGroup else .str n
    | none => .str serviceGroup

/-- The topic-name non-compliance message. -/
def topicNotCompliantMsg (value : String) (service_name : PathPart) : String :=
  "topicName '" ++ value ++ "' it not compliant, it should contain the service name '" ++
  pathPartToString service_name ++ "'"

/-- `validate_topic_name_compliance`: an error is yielded only when the value
matches the topic pattern and its `serviceName` group is neither the resolved
service name nor the instance's service group. -/
def validate_topic_name_compliance (raw : List (Option PathPart))
    (cfgServiceName : Option String) (serviceGroup : String) (value : String) :
    List String :=
  let service_name := getCurrentServiceName raw cfgServiceName serviceGroup
  match matchTopicName value.data with
  | some seg =>
      if PathPart.str ⟨seg⟩ = service_name ∨ String.mk seg = serviceGroup then []
      else [topicNotCompliantMsg value service_name]
  | none => []

/-- C7: a value that fails the topic-name pattern yields no error at all from
the topic-name compliance check; an error is emitted only when the value
matches and its embedded service segment equals neither the resolved service
name — path-derived, else the declared truthy `serviceName`, else the service
group, in that priority order — nor the service group; hence pattern
mismatch and service mismatch never fire on the same value. -/
theorem validate_topic_name_compliance_spec (raw : List (Option PathPart))
    (cfgServiceName : Option String) (serviceGroup : String) (value : String)
    (n : String) :
    (matchTopicName value.data = none →
        validate_topic_name_compliance raw cfgServiceName serviceGroup value = [])
    ∧ (validate_topic_name_compliance raw cfgServiceName serviceGroup value ≠ [] →
        ∃ seg, matchTopicName value.data = some seg
          ∧ PathPart.str ⟨seg⟩ ≠ getCurrentServiceName raw cfgServiceName serviceGroup
          ∧ String.mk seg ≠ serviceGroup)
    ∧ (2 < (getCurrentPath raw).length ∧
        (getCurrentPath raw).take 2 = [.str "platform-managed-chart", .str "services"] →
        getCurrentServiceName raw cfgServiceName serviceGroup =
          (getCurrentPath raw).getD 2 (.str serviceGroup))
    ∧ (¬ (2 < (getCurrentPath raw).length ∧
          (getCurrentPath raw).take 2 = [.str "platform-managed-chart", .str "services"]) →
        (cfgServiceName = some n → n ≠ "" →
          getCurrentServiceName raw cfgServiceName serviceGroup = .str n)
        ∧ (cfgServiceName = none ∨ cfgServiceName = some "" →
          getCurrentServiceName raw cfgServiceName serviceGroup = .str serviceGroup)) := by
  refine ⟨?_, ?_, ?_, ?_⟩
  · intro h
    unfold validate_topic_name_compliance
    rw [h]
  · intro h
    cases hm : matchTopicName value.data with
    | none =>
        exact absurd (show validate_topic_name_compliance raw cfgServiceName serviceGroup
          value = [] by simp [validate_topic_name_compliance, hm]) h
    | some seg =>
        refine ⟨seg, rfl, ?_⟩
        by_cases hc : PathPart.str ⟨seg⟩ = getCurrentServiceName raw cfgServiceName serviceGroup
            ∨ String.mk seg = serviceGroup
        · exact absurd (show validate_topic_name_compliance raw cfgServiceName serviceGroup
            value = [] by simp [validate_topic_name_compliance, hm, hc]) h
        · push_neg at hc; exact hc
  · intro h
    unfold getCurrentServiceName
    rw [if_pos h]
  · intro h
    constructor
    · intro hc hn
      unfold getCurrentServiceName
      rw [if_neg h, hc]
      simp [hn]
    · intro hc
      unfold getCurrentServiceName
      rw [if_neg h]
      rcases hc with hc | hc
      · rw [hc]
      · rw [hc]
        simp

/-- Witness for C7: `"Invalid_Topic"` fails the pattern and yields no error;
`"private.other.topic"` matches with segment `"other"`, which differs from
the resolved name and group `"svc"`, and yields one error; a path under
`platform-managed-chart.services` resolves the service name from the path. -/
theorem validate_topic_name_compliance_spec_witness :
    validate_topic_name_compliance [] none "svc" "Invalid_Topic" = []
    ∧ matchTopicName "private.other.topic".data = some "other".data
    ∧ validate_topic_name_compliance [] none "svc" "private.other.topic" ≠ []
    ∧ getCurrentServiceName
        [some (.str "platform-managed-chart"), some (.str "services"),
          some (.str "pathsvc"), none, some (.idx 0)] (some "cfgsvc") "svc"
        = .str "pathsvc" := by
  refine ⟨?_, by decide, by decide, ?_⟩
  · exact (validate_topic_name_compliance_spec [] none "svc" "Invalid_Topic" "").1
      (by decide)
  · exact (validate_topic_name_compliance_spec
      [some (.str "platform-managed-chart"), some (.str "services"),
        some (.str "pathsvc"), none, some (.idx 0)] (some "cfgsvc") "svc" "x" "").2.2.1
      (by decide)

/-!
## The schema header comment: `SCHEMA_HEADER_REGEXP`, extraction and repair

`SCHEMA_HEADER_REGEXP` is the multiline pattern
`^ *# yaml-language-server: \$schema={base}/v(?P<version>[^/]+)/schema-platform-managed-chart.json`.
Its backtracking also collapses deterministically: the greedy space run is
forced (the next pattern character is `#`, not a space), every unescaped dot
is a wildcard matching any character but a newline, and the greedy version
group `[^/]+` — the only element that can match a newline — must be the
maximal slash-free run because the literal `/` of `/schema-…` follows it.
`re.search` scans line starts left to right; `re.sub` replaces every match
and resumes after it.
-/

inductive PatChar where
  | lit (c : Char)
  | anyNotNl
deriving DecidableEq

def mkPat (s : List Char) : List PatChar :=
  s.map fun c => if c = '.' then PatChar.anyNotNl else PatChar.lit c

def patAccepts : PatChar → Char → Bool
  | .lit l, c => l == c
  | .anyNotNl, c => c != '\n'

def matchPat : List PatChar → List Char → Option (List Char)
  | [], s => some s
  | _ :: _, [] => none
  | p :: ps, c :: cs => if patAccepts p c then matchPat ps cs else none

def hdrPreStr : String := "# yaml-language-server: $schema=" ++ SCHEMA_BASE_URL ++ "/v"
def hdrPostStr : String := "/schema-platform-managed-chart.json"
def headerStr (version : String) : String := hdrPreStr ++ version ++ hdrPostStr

def patPre : List PatChar := mkPat hdrPreStr.data
def patPost : List PatChar := mkPat hdrPostStr.data

def matchHeaderAt (s : List Char) : Option (List Char × List Char) :=
  (matchPat patPre (s.dropWhile (· == ' '))).bind fun s2 =>
    if (s2.takeWhile (· != '/')).isEmpty then none
    else
      (matchPat patPost (s2.dropWhile (· != '/'))).bind fun s3 =>
        some (s3, s2.takeWhile (· != '/'))

-- sanity checks
example : matchHeaderAt ((headerStr "1.2.3").data ++ ['\n','x']) = some (['\n','x'], "1.2.3".data) := by decide
example : matchHeaderAt (' ' :: (headerStr "1.2.3").data) = some ([], "1.2.3".data) := by decide
example : matchHeaderAt ((headerStr "a/b").data) = none := by decide
example : matchHeaderAt ((headerStr "").data) = none := by decide
example : matchHeaderAt ('x' :: (headerStr "1.2.3").data) = none := by decide

def searchHeader : List Char → Bool → Option (List Char)
  | [], lineStart => if lineStart then (matchHeaderAt []).map Prod.snd else none
  | c :: cs, lineStart =>
      if lineStart then
        match matchHeaderAt (c :: cs) with
        | some r => some r.2
        | none => searchHeader cs (c == '\n')
      else searchHeader cs (c == '\n')

example : searchHeader ('x' :: '\n' :: (headerStr "1.2.3").data) true = some "1.2.3".data := by decide
example : searchHeader ('x' :: 'y' :: (headerStr "1.2.3").data) true = none := by decide

lemma searchHeader_nil (ls : Bool) : searchHeader [] ls = none := by
  cases ls <;> rfl

lemma searchHeader_false_cons (c : Char) (cs : List Char) :
    searchHeader (c :: cs) false = searchHeader cs (c == '\n') := rfl

lemma searchHeader_true_some (s : List Char) (r : List Char × List Char)
    (h : matchHeaderAt s = some r) : searchHeader s true = some r.2 := by
  cases s with
  | nil => simp [matchHeaderAt, matchPat, patPre, mkPat, hdrPreStr] at h
  | cons c cs => simp [searchHeader, h]

lemma searchHeader_true_none_cons (c : Char) (cs : List Char)
    (h : matchHeaderAt (c :: cs) = none) :
    searchHeader (c :: cs) true = searchHeader cs (c == '\n') := by
  simp [searchHeader, h]

/-- Number of characters consumed by a successful match is positive, so the
remainder is strictly shorter. -/
lemma matchPat_remainder : ∀ (p : List PatChar) (a r : List Char),
    matchPat p a = some r → ∃ cpre, a = cpre ++ r ∧ cpre.length = p.length := by
  intro p
  induction p with
  | nil =>
      intro a r h
      simp [matchPat] at h
      exact ⟨[], by simp [h]⟩
  | cons pc ps ih =>
      intro a r h
      cases a with
      | nil => simp [matchPat] at h
      | cons c cs =>
          simp only [matchPat] at h
          by_cases hacc : patAccepts pc c
          · rw [if_pos hacc] at h
            obtain ⟨cpre, hceq, hclen⟩ := ih cs r h
            exact ⟨c :: cpre, by simp [hceq], by simp [hclen]⟩
          · rw [if_neg hacc] at h
            cases h

lemma matchPat_length_le (p : List PatChar) (a r : List Char)
    (h : matchPat p a = some r) : r.length ≤ a.length := by
  obtain ⟨cpre, rfl, _⟩ := matchPat_remainder p a r h
  simp

lemma matchHeaderAt_rest_lt (s : List Char) (r : List Char × List Char)
    (h : matchHeaderAt s = some r) : r.1.length < s.length := by
  unfold matchHeaderAt at h
  cases h1 : matchPat patPre (s.dropWhile (· == ' ')) with
  | none => rw [h1] at h; cases h
  | some s2 =>
      rw [h1, Option.some_bind] at h
      by_cases he : (s2.takeWhile (· != '/')).isEmpty
      · rw [if_pos he] at h; cases h
      · rw [if_neg he] at h
        cases h2 : matchPat patPost (s2.dropWhile (· != '/')) with
        | none => rw [h2] at h; cases h
        | some s3 =>
            rw [h2, Option.some_bind] at h
            injection h with h
            subst h
            have l3 : s3.length ≤ (s2.dropWhile (· != '/')).length :=
              matchPat_length_le _ _ _ h2
            have l2 : (s2.dropWhile (· != '/')).length < s2.length := by
              have := List.takeWhile_append_dropWhile (fun x => x != '/') s2
              have hlen : (s2.takeWhile (· != '/')).length +
                  (s2.dropWhile (· != '/')).length = s2.length := by
                rw [← List.length_append, this]
              have : (s2.takeWhile (· != '/')).length ≠ 0 := by
                intro e
                rw [List.length_eq_zero] at e
                rw [e] at he
                simp at he
              omega
            have l1 : s2.length ≤ (s.dropWhile (· == ' ')).length :=
              matchPat_length_le _ _ _ h1
            have l0 : (s.dropWhile (· == ' ')).length ≤ s.length := by
              have htd := List.takeWhile_append_dropWhile (fun x => x == ' ') s
              have hlen : (s.takeWhile (· == ' ')).length +
                  (s.dropWhile (· == ' ')).length = s.length := by
                rw [← List.length_append, htd]
              omega
            simp only []
            omega

/-- One pass of `SCHEMA_HEADER_REGEXP.sub(header, content)`, with fuel
(always run with fuel ≥ the string length, which the strictly shrinking
remainder of every match makes sufficient): at each line-start position the
whole match is replaced by `hdr` and scanning resumes after it; the matched
text always ends with the literal `n` of `.json`, so the position after a
match is not a line start. -/
def subHeaderF (hdr : List Char) : Nat → List Char → Bool → List Char
  | 0, s, _ => s
  | _ + 1, [], _ => []
  | fuel + 1, c :: cs, lineStart =>
      if lineStart then
        match matchHeaderAt (c :: cs) with
        | some r => hdr ++ subHeaderF hdr fuel r.1 false
        | none => c :: subHeaderF hdr fuel cs (c == '\n')
      else c :: subHeaderF hdr fuel cs (c == '\n')

/-- `SCHEMA_HEADER_REGEXP.sub(header, content)` over `content = s`. -/
def subHeader (hdr s : List Char) (lineStart : Bool) : List Char :=
  subHeaderF hdr s.length s lineStart

lemma subHeaderF_cons_true (hdr : List Char) (f : Nat) (c : Char) (cs : List Char) :
    subHeaderF hdr (f + 1) (c :: cs) true =
      match matchHeaderAt (c :: cs) with
      | some r => hdr ++ subHeaderF hdr f r.1 false
      | none => c :: subHeaderF hdr f cs (c == '\n') := rfl

lemma subHeaderF_cons_false (hdr : List Char) (f : Nat) (c : Char) (cs : List Char) :
    subHeaderF hdr (f + 1) (c :: cs) false = c :: subHeaderF hdr f cs (c == '\n') := rfl

lemma subHeaderF_fuel_irrel (hdr : List Char) :
    ∀ fuel₁ fuel₂ s ls, s.length ≤ fuel₁ → s.length ≤ fuel₂ →
      subHeaderF hdr fuel₁ s ls = subHeaderF hdr fuel₂ s ls := by
  intro fuel₁
  induction fuel₁ with
  | zero =>
      intro fuel₂ s ls h1 _
      have hs : s = [] := by
        cases s with
        | nil => rfl
        | cons c cs => simp at h1
      subst hs
      cases fuel₂ <;> rfl
  | succ f ih =>
      intro fuel₂ s ls h1 h2
      cases s with
      | nil => cases fuel₂ <;> rfl
      | cons c cs =>
          cases fuel₂ with
          | zero => simp at h2
          | succ f2 =>
              simp only [List.length_cons, Nat.add_le_add_iff_right] at h1 h2
              cases ls with
              | false =>
                  rw [subHeaderF_cons_false, subHeaderF_cons_false,
                    ih f2 cs (c == '\n') h1 h2]
              | true =>
                  rw [subHeaderF_cons_true, subHeaderF_cons_true]
                  cases hm : matchHeaderAt (c :: cs) with
                  | some r =>
                      have hlt := matchHeaderAt_rest_lt (c :: cs) r hm
                      simp only [List.length_cons] at hlt
                      show hdr ++ subHeaderF hdr f r.1 false =
                        hdr ++ subHeaderF hdr f2 r.1 false
                      rw [ih f2 r.1 false (by omega) (by omega)]
                  | none =>
                      show c :: subHeaderF hdr f cs (c == '\n') =
                        c :: subHeaderF hdr f2 cs (c == '\n')
                      rw [ih f2 cs (c == '\n') h1 h2]

lemma subHeader_nil (hdr : List Char) (ls : Bool) : subHeader hdr [] ls = [] := rfl

lemma subHeader_cons_matched (hdr : List Char) (c : Char) (cs : List Char)
    (r : List Char × List Char) (h : matchHeaderAt (c :: cs) = some r) :
    subHeader hdr (c :: cs) true = hdr ++ subHeader hdr r.1 false := by
  have hlt := matchHeaderAt_rest_lt (c :: cs) r h
  simp only [List.length_cons] at hlt
  show subHeaderF hdr (cs.length + 1) (c :: cs) true = _
  rw [subHeaderF_cons_true, h]
  show hdr ++ subHeaderF hdr cs.length r.1 false = _
  rw [subHeaderF_fuel_irrel hdr cs.length r.1.length r.1 false (by omega) (by omega)]
  rfl

lemma subHeader_cons_unmatched (hdr : List Char) (c : Char) (cs : List Char)
    (h : matchHeaderAt (c :: cs) = none) :
    subHeader hdr (c :: cs) true = c :: subHeader hdr cs (c == '\n') := by
  show subHeaderF hdr (cs.length + 1) (c :: cs) true = _
  rw [subHeaderF_cons_true, h]
  rfl

lemma subHeader_cons_false (hdr : List Char) (c : Char) (cs : List Char) :
    subHeader hdr (c :: cs) false = c :: subHeader hdr cs (c == '\n') := by
  show subHeaderF hdr (cs.length + 1) (c :: cs) false = _
  rw [subHeaderF_cons_false]
  rfl


lemma matchPat_extend : ∀ (p : List PatChar) (a r t : List Char),
    matchPat p a = some r → matchPat p (a ++ t) = some (r ++ t) := by
  intro p
  induction p with
  | nil =>
      intro a r t h
      simp only [matchPat, Option.some.injEq] at h
      subst h
      rfl
  | cons pc ps ih =>
      intro a r t h
      cases a with
      | nil => simp [matchPat] at h
      | cons c cs =>
          simp only [matchPat] at h ⊢
          by_cases hacc : patAccepts pc c
          · rw [if_pos hacc] at h ⊢
            exact ih cs r t h
          · rw [if_neg hacc] at h
            cases h

lemma matchPat_append_cases : ∀ (p : List PatChar) (a b r : List Char),
    matchPat p (a ++ b) = some r →
    (∃ r', matchPat p a = some r' ∧ r = r' ++ b) ∨
    (∃ p₁ p₂, p = p₁ ++ p₂ ∧ matchPat p₁ a = some [] ∧ matchPat p₂ b = some r) := by
  intro p
  induction p with
  | nil =>
      intro a b r h
      simp only [matchPat, Option.some.injEq] at h
      exact Or.inl ⟨a, rfl, h.symm⟩
  | cons pc ps ih =>
      intro a b r h
      cases a with
      | nil =>
          exact Or.inr ⟨[], pc :: ps, rfl, rfl, h⟩
      | cons c cs =>
          simp only [List.cons_append, matchPat] at h
          by_cases hacc : patAccepts pc c
          · rw [if_pos hacc] at h
            rcases ih cs b r h with ⟨r', hr', hre⟩ | ⟨p₁, p₂, hp, h1, h2⟩
            · refine Or.inl ⟨r', ?_, hre⟩
              simp only [matchPat, if_pos hacc]
              exact hr'
            · refine Or.inr ⟨pc :: p₁, p₂, by rw [hp]; rfl, ?_, h2⟩
              simp only [matchPat, if_pos hacc]
              exact h1
          · rw [if_neg hacc] at h
            cases h

/-- No element of the pattern can accept a newline. -/
def patNoNl (p : List PatChar) : Prop := ∀ pc ∈ p, pc ≠ PatChar.lit '\n'

lemma patAccepts_newline (pc : PatChar) (h : patAccepts pc '\n' = true) :
    pc = PatChar.lit '\n' := by
  cases pc with
  | lit l =>
      simp only [patAccepts, beq_iff_eq] at h
      rw [h]
  | anyNotNl => simp [patAccepts] at h

lemma matchPat_consumed_no_newline : ∀ (p : List PatChar) (a : List Char),
    patNoNl p → matchPat p a = some [] → '\n' ∉ a := by
  intro p
  induction p with
  | nil =>
      intro a _ h
      simp only [matchPat, Option.some.injEq] at h
      subst h
      simp
  | cons pc ps ih =>
      intro a hn h
      cases a with
      | nil => simp
      | cons c cs =>
          simp only [matchPat] at h
          by_cases hacc : patAccepts pc c
          · rw [if_pos hacc] at h
            intro hmem
            rcases List.mem_cons.mp hmem with rfl | hmem
            · exact hn pc (by simp) (patAccepts_newline pc hacc)
            · exact ih cs (fun q hq => hn q (by simp [hq])) h hmem
          · rw [if_neg hacc] at h
            cases h

lemma patNoNl_left (p₁ p₂ : List PatChar) (h : patNoNl (p₁ ++ p₂)) : patNoNl p₁ :=
  fun q hq => h q (List.mem_append_left p₂ hq)

lemma patNoNl_mkPat (s : List Char) (h : '\n' ∉ s) : patNoNl (mkPat s) := by
  intro q hq
  simp only [mkPat, List.mem_map] at hq
  obtain ⟨c, hc, hce⟩ := hq
  by_cases hd : c = '.'
  · rw [← hce]
    simp [hd]
  · rw [← hce]
    simp only [if_neg hd, ne_eq, PatChar.lit.injEq]
    intro e
    exact h (e ▸ hc)

lemma mkPat_self : ∀ (a t : List Char), '\n' ∉ a →
    matchPat (mkPat a) (a ++ t) = some t := by
  intro a
  induction a with
  | nil => intro t _; rfl
  | cons c cs ih =>
      intro t h
      simp only [List.mem_cons, not_or] at h
      have hacc : patAccepts (if c = '.' then PatChar.anyNotNl else PatChar.lit c) c = true := by
        by_cases hd : c = '.'
        · simp [hd, patAccepts]
        · simp [hd, patAccepts]
      simp only [mkPat, List.map_cons, List.cons_append, matchPat, if_pos hacc]
      exact ih t h.2

-- takeWhile / dropWhile helpers
lemma dropWhile_append_stop (p : Char → Bool) (a b : List Char)
    (h : a.dropWhile p ≠ []) : (a ++ b).dropWhile p = a.dropWhile p ++ b := by
  induction a with
  | nil => exact absurd rfl h
  | cons c cs ih =>
      by_cases hc : p c
      · rw [List.dropWhile_cons_of_pos hc] at h
        simp only [List.cons_append, List.dropWhile_cons_of_pos hc,
          List.dropWhile_cons_of_pos hc]
        exact ih h
      · have hcf : p c = false := by simpa using hc
        simp [List.dropWhile_cons_of_neg hc, hcf]

lemma dropWhile_append_id (p : Char → Bool) (a b : List Char)
    (hne : a ≠ []) (hid : a.dropWhile p = a) : (a ++ b).dropWhile p = a ++ b := by
  rw [dropWhile_append_stop p a b (by rw [hid]; exact hne), hid]

lemma takeWhile_append_stop (p : Char → Bool) (a b : List Char)
    (h : a.dropWhile p ≠ []) : (a ++ b).takeWhile p = a.takeWhile p := by
  induction a with
  | nil => exact absurd rfl h
  | cons c cs ih =>
      by_cases hc : p c
      · rw [List.dropWhile_cons_of_pos hc] at h
        simp only [List.cons_append, List.takeWhile_cons_of_pos hc,
          List.takeWhile_cons_of_pos hc]
        rw [ih h]
      · simp [List.takeWhile_cons_of_neg hc]

lemma takeWhile_append_all (p : Char → Bool) (a b : List Char)
    (h : ∀ c ∈ a, p c = true) : (a ++ b).takeWhile p = a ++ b.takeWhile p := by
  induction a with
  | nil => rfl
  | cons c cs ih =>
      simp only [List.cons_append, List.takeWhile_cons_of_pos (h c (by simp)),
        List.cons.injEq, true_and]
      exact ih (fun x hx => h x (by simp [hx]))

lemma dropWhile_append_all (p : Char → Bool) (a b : List Char)
    (h : ∀ c ∈ a, p c = true) : (a ++ b).dropWhile p = b.dropWhile p := by
  induction a with
  | nil => rfl
  | cons c cs ih =>
      simp only [List.cons_append, List.dropWhile_cons_of_pos (h c (by simp))]
      exact ih (fun x hx => h x (by simp [hx]))

lemma getLast?_mem' : ∀ (l : List Char) (c : Char), l.getLast? = some c → c ∈ l := by
  intro l
  induction l with
  | nil => intro c h; cases h
  | cons x xs ih =>
      intro c h
      cases xs with
      | nil =>
          simp only [List.getLast?_singleton, Option.some.injEq] at h
          simp [h]
      | cons y ys =>
          rw [List.getLast?_cons_cons] at h
          exact List.mem_cons_of_mem x (ih c h)

lemma getLast?_append_right (a b : List Char) (hb : b ≠ []) :
    (a ++ b).getLast? = b.getLast? := by
  induction a with
  | nil => rfl
  | cons c cs ih =>
      rw [List.cons_append]
      cases hcb : cs ++ b with
      | nil =>
          rcases List.append_eq_nil.mp hcb with ⟨_, h2⟩
          exact absurd h2 hb
      | cons y ys =>
          rw [← ih, hcb]
          exact List.getLast?_cons_cons

lemma dropWhile_ne_nil_of_getLast (p : Char → Bool) (l : List Char) (c : Char)
    (hl : l.getLast? = some c) (hc : p c = false) : l.dropWhile p ≠ [] := by
  intro he
  rw [List.dropWhile_eq_nil_iff] at he
  exact absurd (he c (getLast?_mem' l c hl)) (by simp [hc])

lemma getLast?_dropWhile (p : Char → Bool) (l : List Char)
    (h : l.dropWhile p ≠ []) : (l.dropWhile p).getLast? = l.getLast? := by
  conv_rhs => rw [← List.takeWhile_append_dropWhile p l]
  rw [getLast?_append_right _ _ h]


/-- A successful header match at the start of a freshly written header: the
whole header is consumed and the version group is exactly `v`. -/
lemma matchHeaderAt_header (v : String) (hne : v.data ≠ []) (hs : '/' ∉ v.data)
    (tail : List Char) :
    matchHeaderAt ((headerStr v).data ++ tail) = some (tail, v.data) := by
  have hdata : (headerStr v).data ++ tail =
      hdrPreStr.data ++ (v.data ++ (hdrPostStr.data ++ tail)) := by
    simp [headerStr, String.data_append, List.append_assoc]
  rw [hdata]
  unfold matchHeaderAt
  simp only [patPre, patPost]
  rw [dropWhile_append_id (· == ' ') hdrPreStr.data _ (by decide) (by rfl)]
  rw [mkPat_self hdrPreStr.data _ (by decide), Option.some_bind]
  have hv : ∀ c ∈ v.data, (c != '/') = true := by
    intro c hc
    simp only [bne_iff_ne, ne_eq]
    intro e
    exact hs (e ▸ hc)
  have htake : ((v.data ++ (hdrPostStr.data ++ tail)).takeWhile (· != '/')) = v.data := by
    rw [takeWhile_append_all _ _ _ hv,
      takeWhile_append_stop _ _ _ (by decide)]
    simp [hdrPostStr]
  have hdrop : ((v.data ++ (hdrPostStr.data ++ tail)).dropWhile (· != '/')) =
      hdrPostStr.data ++ tail := by
    rw [dropWhile_append_all _ _ _ hv,
      dropWhile_append_id (· != '/') hdrPostStr.data tail (by decide) (by rfl)]
  rw [htake, hdrop]
  have hemp : v.data.isEmpty = false := by
    cases hv2 : v.data with
    | nil => exact absurd hv2 hne
    | cons c cs => rfl
  rw [if_neg (by simp [hemp])]
  rw [mkPat_self hdrPostStr.data tail (by decide), Option.some_bind]


lemma patNoNl_patPre : patNoNl patPre := patNoNl_mkPat _ (by decide)

lemma patNoNl_patPost : patNoNl patPost := patNoNl_mkPat _ (by decide)

lemma matchPat_patPost_hdrPreDrop (X : List Char) :
    matchPat patPost (hdrPreStr.data.dropWhile (· != '/') ++ X) = none := by
  rw [show hdrPreStr.data.dropWhile (· != '/') =
    ("//kp-helmchart-stable-shared-main.s3.eu-west-1.amazonaws.com/schema/platform-managed-chart/v").data
    from by decide]
  rfl

/-- The crossing lemma: a line-start position where the header pattern did
not match in the original text cannot start matching after the text further
right is replaced by a fresh header — the only pattern element that could
consume the newline ending the unchanged gap is the version group `[^/]+`,
and it would then have to swallow the new header's `https:` part and leave
`//kp-…` where the pattern demands `/schema-…`. -/
lemma matchHeaderAt_gap_aux (D rest₁ W : List Char)
    (hDl : D.getLast? = some '\n')
    (hfail : matchHeaderAt (D ++ rest₁) = none) :
    matchHeaderAt (D ++ (hdrPreStr.data ++ W)) = none := by
  have hD1ne : D.dropWhile (· == ' ') ≠ [] :=
    dropWhile_ne_nil_of_getLast _ _ '\n' hDl (by decide)
  have hD1l : (D.dropWhile (· == ' ')).getLast? = some '\n' := by
    rw [getLast?_dropWhile _ _ hD1ne]; exact hDl
  have hsp : (D ++ (hdrPreStr.data ++ W)).dropWhile (· == ' ') =
      D.dropWhile (· == ' ') ++ (hdrPreStr.data ++ W) :=
    dropWhile_append_stop _ _ _ hD1ne
  have hspx : (D ++ rest₁).dropWhile (· == ' ') =
      D.dropWhile (· == ' ') ++ rest₁ :=
    dropWhile_append_stop _ _ _ hD1ne
  unfold matchHeaderAt
  rw [hsp]
  cases hpre : matchPat patPre (D.dropWhile (· == ' ') ++ (hdrPreStr.data ++ W)) with
  | none => rfl
  | some s2 =>
      rw [Option.some_bind]
      rcases matchPat_append_cases patPre (D.dropWhile (· == ' '))
          (hdrPreStr.data ++ W) s2 hpre with ⟨r', hr', rfl⟩ | ⟨p₁, p₂, hp, h1, _⟩
      · by_cases hr'e : r' = []
        · subst hr'e
          rw [List.nil_append]
          by_cases hemp : ((hdrPreStr.data ++ W).takeWhile (· != '/')).isEmpty
          · rw [if_pos hemp]
          · rw [if_neg hemp, dropWhile_append_stop _ _ _ (by decide),
              matchPat_patPost_hdrPreDrop]
            rfl
        · have hr'l : r'.getLast? = some '\n' := by
            obtain ⟨cpre, hceq, _⟩ := matchPat_remainder patPre _ r' hr'
            calc r'.getLast? = (cpre ++ r').getLast? :=
                  (getLast?_append_right cpre r' hr'e).symm
              _ = (D.dropWhile (· == ' ')).getLast? := by rw [← hceq]
              _ = some '\n' := hD1l
          by_cases hslash : r'.dropWhile (· != '/') = []
          · have hall : ∀ c ∈ r', (c != '/') = true := by
              rw [List.dropWhile_eq_nil_iff] at hslash
              intro c hc
              exact hslash c hc
            by_cases hemp : ((r' ++ (hdrPreStr.data ++ W)).takeWhile (· != '/')).isEmpty
            · rw [if_pos hemp]
            · rw [if_neg hemp, dropWhile_append_all _ _ _ hall,
                dropWhile_append_stop _ _ _ (by decide),
                matchPat_patPost_hdrPreDrop]
              rfl
          · have ht : ((r' ++ (hdrPreStr.data ++ W)).takeWhile (· != '/')) =
                r'.takeWhile (· != '/') := takeWhile_append_stop _ _ _ hslash
            have hd : ((r' ++ (hdrPreStr.data ++ W)).dropWhile (· != '/')) =
                r'.dropWhile (· != '/') ++ (hdrPreStr.data ++ W) :=
              dropWhile_append_stop _ _ _ hslash
            have hd'l : (r'.dropWhile (· != '/')).getLast? = some '\n' := by
              rw [getLast?_dropWhile _ _ hslash]; exact hr'l
            by_cases hemp : ((r' ++ (hdrPreStr.data ++ W)).takeWhile (· != '/')).isEmpty
            · rw [if_pos hemp]
            · rw [if_neg hemp, hd]
              cases hpost : matchPat patPost (r'.dropWhile (· != '/') ++ (hdrPreStr.data ++ W)) with
              | none => rfl
              | some s3 =>
                  exfalso
                  rcases matchPat_append_cases patPost (r'.dropWhile (· != '/'))
                      (hdrPreStr.data ++ W) s3 hpost with
                    ⟨r'', hr'', rfl⟩ | ⟨q₁, q₂, hq, hh1, _⟩
                  · apply absurd hfail
                    rw [show matchHeaderAt (D ++ rest₁) =
                        some (r'' ++ rest₁, r'.takeWhile (· != '/')) from ?_]
                    · simp
                    · unfold matchHeaderAt
                      rw [hspx, matchPat_extend patPre _ r' rest₁ hr', Option.some_bind,
                        takeWhile_append_stop _ _ _ hslash]
                      rw [ht] at hemp
                      rw [if_neg hemp, dropWhile_append_stop _ _ _ hslash,
                        matchPat_extend patPost _ r'' rest₁ hr'', Option.some_bind]
                  · have hnl : '\n' ∉ r'.dropWhile (· != '/') :=
                      matchPat_consumed_no_newline q₁ _
                        (patNoNl_left q₁ q₂ (hq ▸ patNoNl_patPost)) hh1
                    exact hnl (getLast?_mem' _ '\n' hd'l)
      · have hnl : '\n' ∉ D.dropWhile (· == ' ') :=
          matchPat_consumed_no_newline p₁ _
            (patNoNl_left p₁ p₂ (hp ▸ patNoNl_patPre)) h1
        exact absurd (getLast?_mem' _ '\n' hD1l) hnl


lemma headerData_decomp (v : String) (X : List Char) :
    (headerStr v).data ++ X = hdrPreStr.data ++ ((v.data ++ hdrPostStr.data) ++ X) := by
  simp [headerStr, String.data_append, List.append_assoc]

lemma getLast?_snoc (D : List Char) (c : Char) : (D ++ [c]).getLast? = some c :=
  getLast?_append_right D [c] (by simp)

/-- Substituting headers further right never creates a match at a line-start
position where none existed. -/
lemma matchHeaderAt_sub_none (v : String) :
    ∀ n (s D : List Char) (ls : Bool), s.length ≤ n →
      (ls = true → D = [] ∨ D.getLast? = some '\n') →
      matchHeaderAt (D ++ s) = none →
      matchHeaderAt (D ++ subHeader (headerStr v).data s ls) = none := by
  intro n
  induction n with
  | zero =>
      intro s D ls hlen _ hfail
      have hs : s = [] := by
        cases s with
        | nil => rfl
        | cons c cs => simp at hlen
      subst hs
      rw [subHeader_nil]
      exact hfail
  | succ m ih =>
      intro s D ls hlen hls hfail
      cases s with
      | nil =>
          rw [subHeader_nil]
          exact hfail
      | cons c cs =>
          simp only [List.length_cons, Nat.add_le_add_iff_right] at hlen
          have hside : ((c == '\n') = true → D ++ [c] = [] ∨
              (D ++ [c]).getLast? = some '\n') := by
            intro hc
            right
            rw [getLast?_snoc]
            rw [beq_iff_eq] at hc
            rw [hc]
          have hfail' : matchHeaderAt ((D ++ [c]) ++ cs) = none := by
            rw [List.append_assoc, List.singleton_append]
            exact hfail
          cases ls with
          | false =>
              rw [subHeader_cons_false]
              have := ih cs (D ++ [c]) (c == '\n') hlen hside hfail'
              rw [List.append_assoc, List.singleton_append] at this
              exact this
          | true =>
              cases hm : matchHeaderAt (c :: cs) with
              | some r =>
                  rcases hls rfl with hD | hDl
                  · subst hD
                    rw [List.nil_append] at hfail
                    rw [hfail] at hm
                    exact Option.noConfusion hm
                  · rw [subHeader_cons_matched _ c cs r hm,
                      headerData_decomp v (subHeader (headerStr v).data r.1 false)]
                    exact matchHeaderAt_gap_aux D (c :: cs) _ hDl hfail
              | none =>
                  rw [subHeader_cons_unmatched _ c cs hm]
                  have := ih cs (D ++ [c]) (c == '\n') hlen hside hfail'
                  rw [List.append_assoc, List.singleton_append] at this
                  exact this

/-- After substitution, the first header found carries the new version. -/
lemma searchHeader_sub (v : String) (hne : v.data ≠ []) (hs : '/' ∉ v.data) :
    ∀ n (s : List Char) (ls : Bool), s.length ≤ n →
      (searchHeader s ls).isSome →
      searchHeader (subHeader (headerStr v).data s ls) ls = some v.data := by
  intro n
  induction n with
  | zero =>
      intro s ls hlen hsome
      have he : s = [] := by
        cases s with
        | nil => rfl
        | cons c cs => simp at hlen
      subst he
      rw [searchHeader_nil] at hsome
      cases hsome
  | succ m ih =>
      intro s ls hlen hsome
      cases s with
      | nil =>
          rw [searchHeader_nil] at hsome
          cases hsome
      | cons c cs =>
          simp only [List.length_cons, Nat.add_le_add_iff_right] at hlen
          cases ls with
          | false =>
              rw [subHeader_cons_false, searchHeader_false_cons]
              rw [searchHeader_false_cons] at hsome
              exact ih cs (c == '\n') hlen hsome
          | true =>
              cases hm : matchHeaderAt (c :: cs) with
              | some r =>
                  rw [subHeader_cons_matched _ c cs r hm]
                  exact searchHeader_true_some _ _
                    (matchHeaderAt_header v hne hs _)
              | none =>
                  rw [subHeader_cons_unmatched _ c cs hm]
                  have hnone : matchHeaderAt
                      (c :: subHeader (headerStr v).data cs (c == '\n')) = none := by
                    have := matchHeaderAt_sub_none v cs.length cs [c] (c == '\n')
                      (le_refl _) ?_ ?_
                    · rw [List.singleton_append] at this
                      exact this
                    · intro hc
                      right
                      rw [beq_iff_eq] at hc
                      rw [hc]
                      rfl
                    · rw [List.singleton_append]
                      exact hm
                  rw [searchHeader_true_none_cons _ _ hnone]
                  rw [searchHeader_true_none_cons _ _ hm] at hsome
                  exact ih cs (c == '\n') hlen hsome


/-- `ValuesFile.header_schema_version`: version captured by the first match
of `SCHEMA_HEADER_REGEXP` in the file content. -/
def header_schema_version (content : String) : Option String :=
  (searchHeader content.data true).map fun l => ⟨l⟩

/-- `ValuesFile.set_header_schema_version`: no-op when the header already
carries `version`; prepend a fresh header line when there is none; otherwise
substitute every matched header. -/
def set_header_schema_version (version content : String) : String :=
  if header_schema_version content = some version then content
  else
    match header_schema_version content with
    | none => headerStr version ++ "\n" ++ content
    | some _ => ⟨subHeader (headerStr version).data content.data true⟩

/-- C9 (amended): after `set_header_schema_version v` the extracted header
version is exactly `v`, for every file content, whenever `v` is nonempty and
contains no `/` — whether the content had no header (one is prepended) or a
header with a different version (every matched header is substituted). -/
theorem set_header_schema_version_roundtrip (content v : String)
    (hne : v.data ≠ []) (hs : '/' ∉ v.data) :
    header_schema_version (set_header_schema_version v content) = some v := by
  unfold set_header_schema_version
  by_cases h0 : header_schema_version content = some v
  · rw [if_pos h0]
    exact h0
  · rw [if_neg h0]
    cases hsv : header_schema_version content with
    | none =>
        show header_schema_version (headerStr v ++ "\n" ++ content) = some v
        unfold header_schema_version
        have hd : (headerStr v ++ "\n" ++ content).data =
            (headerStr v).data ++ ('\n' :: content.data) := by
          simp [String.data_append, List.append_assoc]
        rw [hd, searchHeader_true_some _ ('\n' :: content.data, v.data)
          (matchHeaderAt_header v hne hs _)]
        rfl
    | some w =>
        show header_schema_version ⟨subHeader (headerStr v).data content.data true⟩
          = some v
        unfold header_schema_version
        have hsome : (searchHeader content.data true).isSome := by
          unfold header_schema_version at hsv
          cases hse : searchHeader content.data true with
          | none => rw [hse] at hsv; cases hsv
          | some l => rfl
        rw [show (String.mk (subHeader (headerStr v).data content.data true)).data =
          subHeader (headerStr v).data content.data true from rfl]
        rw [searchHeader_sub v hne hs content.data.length content.data true
          (le_refl _) hsome]
        rfl

/-- Witness for C9 (amended) at concrete inputs: repairing a file without a
header, and one whose header carries another version. -/
theorem set_header_schema_version_roundtrip_witness :
    header_schema_version (set_header_schema_version "0.1.157" "x: 1\n")
      = some "0.1.157"
    ∧ header_schema_version
        (set_header_schema_version "0.1.157" (headerStr "1.2.3" ++ "\nx: 1\n"))
      = some "0.1.157" :=
  ⟨set_header_schema_version_roundtrip "x: 1\n" "0.1.157" (by decide) (by decide),
   set_header_schema_version_roundtrip (headerStr "1.2.3" ++ "\nx: 1\n") "0.1.157"
     (by decide) (by decide)⟩

/-- C9 counterexample: for a version containing `/` the written header does
not parse back — `set_header_schema_version "a/b"` on an empty file yields a
content whose extracted header version is `none`, not `some "a/b"` (the
version group `[^/]+` cannot span the slash). -/
theorem set_header_schema_version_roundtrip_cex :
    header_schema_version (set_header_schema_version "a/b" "") ≠ some "a/b" := by
  decide

/-- C8 (amended): `set_header_schema_version v` is idempotent on file
contents whenever `v` is nonempty and contains no `/`: applying it twice
yields byte-identical content to applying it once, and when the header
already carries `v` it is a no-op. -/
theorem set_header_schema_version_idempotent (content v : String)
    (hne : v.data ≠ []) (hs : '/' ∉ v.data) :
    set_header_schema_version v (set_header_schema_version v content) =
      set_header_schema_version v content
    ∧ (header_schema_version content = some v →
        set_header_schema_version v content = content) := by
  constructor
  · have hr := set_header_schema_version_roundtrip content v hne hs
    generalize hq : set_header_schema_version v content = r at hr ⊢
    unfold set_header_schema_version
    rw [if_pos hr]
  · intro h
    unfold set_header_schema_version
    rw [if_pos h]

/-- Witness for C8 (amended) at concrete inputs. -/
theorem set_header_schema_version_idempotent_witness :
    set_header_schema_version "0.1.157" (set_header_schema_version "0.1.157" "x: 1\n")
      = set_header_schema_version "0.1.157" "x: 1\n"
    ∧ set_header_schema_version "0.1.157" (headerStr "0.1.157" ++ "\nx: 1\n")
      = headerStr "0.1.157" ++ "\nx: 1\n" :=
  ⟨(set_header_schema_version_idempotent "x: 1\n" "0.1.157" (by decide) (by decide)).1,
   (set_header_schema_version_idempotent (headerStr "0.1.157" ++ "\nx: 1\n") "0.1.157"
     (by decide) (by decide)).2 (by decide)⟩

/-- C8 counterexample: for the version `"a/b"` (which the header regexp can
never parse back) applying `set_header_schema_version` twice prepends two
header lines, so the result differs from applying it once. -/
theorem set_header_schema_version_idempotent_cex :
    set_header_schema_version "a/b" (set_header_schema_version "a/b" "") ≠
      set_header_schema_version "a/b" "" := by
  decide

/-!
## Mutation-freedom of `deep_merge` (heap model)

To state that `deep_merge` never mutates its argument dictionaries we model
Python objects with identity: a heap is a list of objects, an address is an
index, and a dict object holds the addresses of its values.  `deep_merge`
allocates one fresh result dict per (recursive) call and only ever assigns
into result dicts, so every pre-existing heap cell keeps its object.
-/

/-- A Python object on the heap: a dict (holding the addresses of its
values) or any non-dict value (whose content merging never inspects). -/
inductive HeapObj where
  | dictObj (entries : List (String × Nat))
  | atomObj
deriving DecidableEq

/-- The heap: the object at address `a` is the list entry at index `a`; the
next fresh address is the length. -/
abbrev Heap := List HeapObj

/-- `d.get(k)` on address-valued dict entries. -/
def dictGetN : List (String × Nat) → String → Option Nat
  | [], _ => none
  | (k', v') :: rest, k => if k' = k then some v' else dictGetN rest k

/-- `d[k] = v` on address-valued dict entries. -/
def dictUpdN : List (String × Nat) → String → Nat → List (String × Nat)
  | [], k, v => [(k, v)]
  | (k', v') :: rest, k, v =>
      if k' = k then (k, v) :: rest else (k', v') :: dictUpdN rest k v

/-- `result[key] = value` on the heap: store into the dict object at address
`res`. -/
def setEntry (σ : Heap) (res : Nat) (k : String) (v : Nat) : Option Heap :=
  match σ[res]? with
  | some (.dictObj es) => some (σ.set res (.dictObj (dictUpdN es k v)))
  | _ => none

/-- `isinstance(value, dict) and isinstance(result.get(key), dict)`: the
address of `result[key]` when both it and the incoming value are dict
objects. -/
def bothDictAddr (σ : Heap) (res : Nat) (k : String) (vaddr : Nat) : Option Nat :=
  match σ[res]? with
  | some (.dictObj es) =>
      match dictGetN es k with
      | some ra =>
          match σ[ra]?, σ[vaddr]? with
          | some (.dictObj _), some (.dictObj _) => some ra
          | _, _ => none
      | none => none
  | _ => none

/-- The phases of a heap-level `deep_merge` run. -/
inductive MTask where
  | merge (sources : List Nat)
  | msources (res : Nat) (sources : List Nat)
  | mentries (res : Nat) (entries : List (String × Nat))

/-- Heap-level `deep_merge`, fuel-indexed (any Python-terminating run has
enough fuel): `merge` allocates the fresh `result = {}` and folds the
sources into it; `msources` iterates `for dictionary in sources`;
`mentries` iterates `for key, value in dictionary.items()`, recursing with
`deep_merge(result[key], value)` when both values are dict objects and
storing the incoming address otherwise.  Returns the final heap and the
result address. -/
def runMerge : Nat → Heap → MTask → Option (Heap × Nat)
  | 0, _, _ => none
  | fuel + 1, σ, .merge srcs =>
      runMerge fuel (σ ++ [.dictObj []]) (.msources σ.length srcs)
  | _ + 1, σ, .msources res [] => some (σ, res)
  | fuel + 1, σ, .msources res (src :: rest) =>
      match σ[src]? with
      | some (.dictObj entries) =>
          match runMerge fuel σ (.mentries res entries) with
          | some (σ₂, _) => runMerge fuel σ₂ (.msources res rest)
          | none => none
      | _ => none
  | _ + 1, σ, .mentries res [] => some (σ, res)
  | fuel + 1, σ, .mentries res ((k, vaddr) :: rest) =>
      match bothDictAddr σ res k vaddr with
      | some ra =>
          match runMerge fuel σ (.merge [ra, vaddr]) with
          | some (σ₂, m) =>
              match setEntry σ₂ res k m with
              | some σ₃ => runMerge fuel σ₃ (.mentries res rest)
              | none => none
          | none => none
      | none =>
          match setEntry σ res k vaddr with
          | some σ₂ => runMerge fuel σ₂ (.mentries res rest)
          | none => none

/-- `deep_merge(*sources)` on the heap. -/
def deep_merge_heap (fuel : Nat) (σ : Heap) (sources : List Nat) :
    Option (Heap × Nat) :=
  runMerge fuel σ (.merge sources)

/-- Which pre-existing addresses a phase may write: the top-level merge
writes none of them; the folding phases write only their own (fresh) result
address. -/
def protectedAddr : MTask → Nat → Prop
  | .merge _, _ => True
  | .msources r _, a => a ≠ r
  | .mentries r _, a => a ≠ r

/-- The returned address: a fresh one for a top-level merge, the result
argument itself for the folding phases. -/
def taskPost : MTask → Heap → Heap → Nat → Prop
  | .merge _, σ, σ', res => σ.length ≤ res ∧ res < σ'.length
  | .msources r _, _, _, res => res = r
  | .mentries r _, _, _, res => res = r

lemma setEntry_frame (σ : Heap) (res : Nat) (k : String) (v : Nat) (σ' : Heap)
    (h : setEntry σ res k v = some σ') :
    σ'.length = σ.length ∧ ∀ a, a ≠ res → σ'[a]? = σ[a]? := by
  unfold setEntry at h
  cases hr : σ[res]? with
  | none => rw [hr] at h; cases h
  | some o =>
      cases o with
      | atomObj => rw [hr] at h; cases h
      | dictObj es =>
          rw [hr] at h
          injection h with h
          subst h
          refine ⟨List.length_set σ res _, fun a ha => ?_⟩
          exact List.getElem?_set_ne (fun e => ha e.symm)

lemma runMerge_msources_cons_eq (f : Nat) (σ : Heap) (r src : Nat)
    (rest : List Nat) :
    runMerge (f + 1) σ (.msources r (src :: rest)) =
      match σ[src]? with
      | some (.dictObj entries) =>
          match runMerge f σ (.mentries r entries) with
          | some (σ₂, _) => runMerge f σ₂ (.msources r rest)
          | none => none
      | _ => none := by
  simp only [runMerge]

lemma runMerge_mentries_cons_eq (f : Nat) (σ : Heap) (r : Nat) (k : String)
    (vaddr : Nat) (rest : List (String × Nat)) :
    runMerge (f + 1) σ (.mentries r ((k, vaddr) :: rest)) =
      match bothDictAddr σ r k vaddr with
      | some ra =>
          match runMerge f σ (.merge [ra, vaddr]) with
          | some (σ₂, m) =>
              match setEntry σ₂ r k m with
              | some σ₃ => runMerge f σ₃ (.mentries r rest)
              | none => none
          | none => none
      | none =>
          match setEntry σ r k vaddr with
          | some σ₂ => runMerge f σ₂ (.mentries r rest)
          | none => none := by
  simp only [runMerge]

/-- Frame property of the heap-level merge: the heap only grows, every
pre-existing cell other than the phase's own result cell keeps its object,
and a top-level merge returns a freshly allocated result address. -/
lemma runMerge_frame :
    ∀ fuel σ t σ' res, runMerge fuel σ t = some (σ', res) →
      σ.length ≤ σ'.length
      ∧ (∀ a, a < σ.length → protectedAddr t a → σ'[a]? = σ[a]?)
      ∧ taskPost t σ σ' res := by
  intro fuel
  induction fuel with
  | zero =>
      intro σ t σ' res h
      cases h
  | succ f ih =>
      intro σ t σ' res h
      cases t with
      | merge srcs =>
          rw [show runMerge (f + 1) σ (.merge srcs) =
            runMerge f (σ ++ [.dictObj []]) (.msources σ.length srcs) from rfl] at h
          obtain ⟨hlen, hfr, hpost⟩ := ih _ _ _ _ h
          rw [List.length_append, List.length_cons, List.length_nil] at hlen
          have hres : res = σ.length := hpost
          refine ⟨by omega, ?_, ⟨by omega, by omega⟩⟩
          intro a ha _
          rw [hfr a (by rw [List.length_append, List.length_cons, List.length_nil]; omega)
            (by show a ≠ σ.length; omega)]
          exact List.getElem?_append_left ha
      | msources r srcs =>
          cases srcs with
          | nil =>
              have h' : (some (σ, r) : Option (Heap × Nat)) = some (σ', res) := h
              injection h' with h'
              injection h' with h1 h2
              subst h1
              subst h2
              exact ⟨le_refl _, fun a _ _ => rfl, rfl⟩
          | cons src rest =>
              rw [runMerge_msources_cons_eq] at h
              cases hsrc : σ[src]? with
              | none =>
                  rw [hsrc] at h
                  exact Option.noConfusion (h : (none : Option (Heap × Nat)) = _)
              | some o =>
                  cases o with
                  | atomObj =>
                      rw [hsrc] at h
                      exact Option.noConfusion (h : (none : Option (Heap × Nat)) = _)
                  | dictObj entries =>
                      rw [hsrc] at h
                      have h' : (match runMerge f σ (.mentries r entries) with
                        | some (σ₂, _) => runMerge f σ₂ (.msources r rest)
                        | none => none) = some (σ', res) := h
                      cases h1 : runMerge f σ (.mentries r entries) with
                      | none =>
                          rw [h1] at h'
                          exact Option.noConfusion (h' : (none : Option (Heap × Nat)) = _)
                      | some p =>
                          obtain ⟨σ₂, m⟩ := p
                          rw [h1] at h'
                          have h2 : runMerge f σ₂ (.msources r rest) = some (σ', res) := h'
                          obtain ⟨hl1, hf1, _⟩ := ih _ _ _ _ h1
                          obtain ⟨hl2, hf2, hp2⟩ := ih _ _ _ _ h2
                          refine ⟨le_trans hl1 hl2, ?_, hp2⟩
                          intro a ha hprot
                          have hane : a ≠ r := hprot
                          rw [hf2 a (by omega) hane, hf1 a ha hane]
      | mentries r es =>
          cases es with
          | nil =>
              have h' : (some (σ, r) : Option (Heap × Nat)) = some (σ', res) := h
              injection h' with h'
              injection h' with h1 h2
              subst h1
              subst h2
              exact ⟨le_refl _, fun a _ _ => rfl, rfl⟩
          | cons e rest =>
              obtain ⟨k, vaddr⟩ := e
              rw [runMerge_mentries_cons_eq] at h
              cases hbd : bothDictAddr σ r k vaddr with
              | some ra =>
                  rw [hbd] at h
                  have h' : (match runMerge f σ (.merge [ra, vaddr]) with
                    | some (σ₂, m) =>
                        match setEntry σ₂ r k m with
                        | some σ₃ => runMerge f σ₃ (.mentries r rest)
                        | none => none
                    | none => none) = some (σ', res) := h
                  cases h1 : runMerge f σ (.merge [ra, vaddr]) with
                  | none =>
                      rw [h1] at h'
                      exact Option.noConfusion (h' : (none : Option (Heap × Nat)) = _)
                  | some p =>
                      obtain ⟨σ₂, m⟩ := p
                      rw [h1] at h'
                      have h'' : (match setEntry σ₂ r k m with
                        | some σ₃ => runMerge f σ₃ (.mentries r rest)
                        | none => none) = some (σ', res) := h'
                      cases h2 : setEntry σ₂ r k m with
                      | none =>
                          rw [h2] at h''
                          exact Option.noConfusion (h'' : (none : Option (Heap × Nat)) = _)
                      | some σ₃ =>
                          rw [h2] at h''
                          have h3 : runMerge f σ₃ (.mentries r rest) = some (σ', res) := h''
                          obtain ⟨hl1, hf1, _⟩ := ih _ _ _ _ h1
                          obtain ⟨hl2, hf2⟩ := setEntry_frame σ₂ r k m σ₃ h2
                          obtain ⟨hl3, hf3, hp3⟩ := ih _ _ _ _ h3
                          refine ⟨by omega, ?_, hp3⟩
                          intro a ha hprot
                          have hane : a ≠ r := hprot
                          rw [hf3 a (by omega) hane, hf2 a hane, hf1 a (by omega) trivial]
              | none =>
                  rw [hbd] at h
                  have h' : (match setEntry σ r k vaddr with
                    | some σ₂ => runMerge f σ₂ (.mentries r rest)
                    | none => none) = some (σ', res) := h
                  cases h2 : setEntry σ r k vaddr with
                  | none =>
                      rw [h2] at h'
                      exact Option.noConfusion (h' : (none : Option (Heap × Nat)) = _)
                  | some σ₂ =>
                      rw [h2] at h'
                      have h3 : runMerge f σ₂ (.mentries r rest) = some (σ', res) := h'
                      obtain ⟨hl2, hf2⟩ := setEntry_frame σ r k vaddr σ₂ h2
                      obtain ⟨hl3, hf3, hp3⟩ := ih _ _ _ _ h3
                      refine ⟨by omega, ?_, hp3⟩
                      intro a ha hprot
                      have hane : a ≠ r := hprot
                      rw [hf3 a (by omega) hane, hf2 a hane]

/-- C10: `deep_merge` never mutates its argument mappings — in the heap
model, every address that existed before the call (in particular every input
dict and all of its nested objects) still holds exactly the same object
afterwards, and the merged result lives at a freshly allocated address. -/
theorem deep_merge_heap_no_mutation (fuel : Nat) (σ : Heap) (sources : List Nat)
    (σ' : Heap) (res : Nat) (h : deep_merge_heap fuel σ sources = some (σ', res)) :
    (∀ a, a < σ.length → σ'[a]? = σ[a]?)
    ∧ σ.length ≤ res ∧ res < σ'.length := by
  obtain ⟨_, hfr, hpost⟩ := runMerge_frame fuel σ (.merge sources) σ' res h
  exact ⟨fun a ha => hfr a ha trivial, hpost.1, hpost.2⟩

/-- Witness for C10 at a concrete heap: merging two dicts that share the key
`k` (one value an atom, one a dict) leaves all four pre-existing objects
untouched and builds the result at the fresh address `4`. -/
theorem deep_merge_heap_no_mutation_witness :
    deep_merge_heap 10
        [HeapObj.dictObj [("k", 1)], HeapObj.atomObj,
         HeapObj.dictObj [("k", 3)], HeapObj.atomObj] [0, 2]
      = some ([HeapObj.dictObj [("k", 1)], HeapObj.atomObj,
          HeapObj.dictObj [("k", 3)], HeapObj.atomObj,
          HeapObj.dictObj [("k", 3)]], 4)
    ∧ [HeapObj.dictObj [("k", 1)], HeapObj.atomObj, HeapObj.dictObj [("k", 3)],
        HeapObj.atomObj, HeapObj.dictObj [("k", 3)]][0]?
      = some (HeapObj.dictObj [("k", 1)]) := by
  have h : deep_merge_heap 10
      [HeapObj.dictObj [("k", 1)], HeapObj.atomObj,
       HeapObj.dictObj [("k", 3)], HeapObj.atomObj] [0, 2]
      = some ([HeapObj.dictObj [("k", 1)], HeapObj.atomObj,
          HeapObj.dictObj [("k", 3)], HeapObj.atomObj,
          HeapObj.dictObj [("k", 3)]], 4) := by decide
  have hf := deep_merge_heap_no_mutation 10
    [HeapObj.dictObj [("k", 1)], HeapObj.atomObj,
     HeapObj.dictObj [("k", 3)], HeapObj.atomObj] [0, 2]
    [HeapObj.dictObj [("k", 1)], HeapObj.atomObj, HeapObj.dictObj [("k", 3)],
     HeapObj.atomObj, HeapObj.dictObj [("k", 3)]] 4 h
  exact ⟨h, hf.1 0 (by decide)⟩

end GitopsValidation
